import Mathlib

/-!
# Souffle: the parallelization transform and the LVM relation store

A shallow embedding of

* `ParallelTransformer::parallelizeOperations` (`src/ram/transform/Parallel.cpp`), the
  rewrite that promotes the outermost loop of every query to its parallel counterpart, and
* the relation store declared in `src/LVMRelation.h`.

The RAM node classes are declared in headers that are not part of the sources at hand
(`ram/Operation.h`, `ram/Statement.h`, ...).  They are embedded as closed inductive types;
`std::unique_ptr` ownership and `clone` are the identity on values.
-/

namespace souffle

/-! ## RAM nodes -/

/-- The domain of values of the RAM machine (`RamDomain`, a signed integer type). -/
abbrev RamDomain := Int

/-- Modelled from the spec: the declaration of `RamRelation` is missing from the sources.
A relation of the RAM program: its name and its number of columns.  A
`RamRelationReference` built from `&rel` designates the relation itself. -/
structure RamRelation where
  name : String
  arity : Nat
  deriving DecidableEq

/-- The accessor `RamRelation::getArity`. -/
def RamRelation.getArity (rel : RamRelation) : Nat := rel.arity

/-- Modelled from the spec: `RamRelation::isNullary` is missing from the sources; a nullary
relation is one with zero columns. -/
def RamRelation.isNullary (rel : RamRelation) : Bool := rel.arity == 0

/-- The functors named by `ram_arithmetic_test.cpp`. -/
inductive FunctorOp where
  | ADD
  | NEG
  | FNEG
  deriving DecidableEq

/-- Modelled from the spec: the declarations of the expression nodes are missing from the
sources.  Expressions as they are built in `ram_arithmetic_test.cpp`, together with tuple
elements and the undefined value. -/
inductive RamExpression where
  | RamNumber (constant : RamDomain)
  | RamTupleElement (ident : Int) (element : Nat)
  | RamIntrinsicOperator (op : FunctorOp) (args : List RamExpression)
  | RamUndefValue

/-- Modelled from the spec: the declarations of the condition nodes are missing from the
sources. -/
inductive RamCondition where
  | RamTrue
  | RamFalse
  | RamConjunction (lhs rhs : RamCondition)
  | RamNegation (operand : RamCondition)
  | RamConstraint (op : String) (lhs rhs : RamExpression)
  | RamEmptinessCheck (rel : RamRelation)
  | RamExistenceCheck (rel : RamRelation) (values : List RamExpression)

/-- The aggregation functions of an aggregate node. -/
inductive AggregateOp where
  | MIN
  | MAX
  | COUNT
  | SUM
  deriving DecidableEq

/-- Modelled from the spec: one column of a range pattern is either unconstrained or bound by
a low/high pair of expressions. -/
inductive RangeColumn where
  | unbound
  | bound (low high : RamExpression)

/-- Modelled from the spec: the declaration of `RamPattern` is missing from the sources; a
range pattern has one entry per column. -/
abbrev RamPattern := List RangeColumn

/-- The helper `clone` on range patterns: a deep copy, column by column. -/
def clone (pattern : RamPattern) : RamPattern :=
  pattern.map fun
    | .unbound => .unbound
    | .bound low high => .bound low high

/-- Modelled from the spec: the declarations of the operation nodes are missing from the
sources.  The six loop kinds, their parallel counterparts (separate kinds, which a cast to a
sequential kind does not match) and the remaining operations.  The arguments of the loop
kinds are those of the constructor calls in `Parallel.cpp`; the constructors of the aggregates
take no profile text. -/
inductive RamOperation where
  | RamScan (rel : RamRelation) (ident : Int) (nested : RamOperation) (profileText : String)
  | RamParallelScan (rel : RamRelation) (ident : Int) (nested : RamOperation)
      (profileText : String)
  | RamChoice (rel : RamRelation) (ident : Int) (condition : RamCondition)
      (nested : RamOperation) (profileText : String)
  | RamParallelChoice (rel : RamRelation) (ident : Int) (condition : RamCondition)
      (nested : RamOperation) (profileText : String)
  | RamIndexScan (rel : RamRelation) (ident : Int) (queryPattern : RamPattern)
      (nested : RamOperation) (profileText : String)
  | RamParallelIndexScan (rel : RamRelation) (ident : Int) (queryPattern : RamPattern)
      (nested : RamOperation) (profileText : String)
  | RamIndexChoice (rel : RamRelation) (ident : Int) (condition : RamCondition)
      (queryPattern : RamPattern) (nested : RamOperation) (profileText : String)
  | RamParallelIndexChoice (rel : RamRelation) (ident : Int) (condition : RamCondition)
      (queryPattern : RamPattern) (nested : RamOperation) (profileText : String)
  | RamAggregate (nested : RamOperation) (function : AggregateOp) (rel : RamRelation)
      (expression : RamExpression) (condition : RamCondition) (ident : Int)
  | RamParallelAggregate (nested : RamOperation) (function : AggregateOp) (rel : RamRelation)
      (expression : RamExpression) (condition : RamCondition) (ident : Int)
  | RamIndexAggregate (nested : RamOperation) (function : AggregateOp) (rel : RamRelation)
      (expression : RamExpression) (condition : RamCondition) (queryPattern : RamPattern)
      (ident : Int)
  | RamParallelIndexAggregate (nested : RamOperation) (function : AggregateOp)
      (rel : RamRelation) (expression : RamExpression) (condition : RamCondition)
      (queryPattern : RamPattern) (ident : Int)
  | RamUnpackRecord (nested : RamOperation) (ident : Int) (expression : RamExpression)
      (arity : Nat)
  | RamFilter (condition : RamCondition) (nested : RamOperation) (profileText : String)
  | RamBreak (condition : RamCondition) (nested : RamOperation) (profileText : String)
  | RamProject (rel : RamRelation) (expressions : List RamExpression)
  | RamSubroutineReturnValue (expressions : List RamExpression)

/-- Modelled from the spec: the declarations of the statement nodes are missing from the
sources.  A query holds the root of an operation tree; the other statements nest
statements. -/
inductive RamStatement where
  | RamSequence (statements : List RamStatement)
  | RamParallel (statements : List RamStatement)
  | RamLoop (body : RamStatement)
  | RamExit (condition : RamCondition)
  | RamQuery (operation : RamOperation)
  | RamLogTimer (statement : RamStatement) (message : String)
  | RamDebugInfo (statement : RamStatement) (message : String)
  | RamClear (rel : RamRelation)
  | RamSwap (first second : RamRelation)

/-- A RAM program as `ram_arithmetic_test.cpp` builds it: the relations, the main statement
and the subroutines by name. -/
structure RamProgram where
  relations : List RamRelation
  main : RamStatement
  subroutines : List (String × RamStatement)

/-- The test `isA<RamProject>` on an operation. -/
def isRamProject : RamOperation → Bool
  | .RamProject _ _ => true
  | _ => false

/-! ## The parallelization transform -/

/-- The lambda `parallelRewriter` of `parallelizeOperations`, on operations.  The captured
flag `changed` is passed in and handed back.  A node that is not replaced has the mapper
applied to its children (`node->apply`); conditions, expressions and relation references are
none of the six kinds and hold no operation, so the mapper hands them back as they are, and
the one child that can change is the nested operation. -/
def parallelRewriter : RamOperation → Bool → RamOperation × Bool
  | .RamScan rel ident nested profileText, changed =>
    if ident = 0 ∧ rel.getArity > 0 ∧ isRamProject nested = false then
      (.RamParallelScan rel ident nested profileText, true)
    else
      let r := parallelRewriter nested changed
      (.RamScan rel ident r.1 profileText, r.2)
  | .RamChoice rel ident condition nested profileText, changed =>
    if ident = 0 then
      (.RamParallelChoice rel ident condition nested profileText, true)
    else
      let r := parallelRewriter nested changed
      (.RamChoice rel ident condition r.1 profileText, r.2)
  | .RamIndexScan rel ident queryPattern nested profileText, changed =>
    if ident = 0 then
      (.RamParallelIndexScan rel ident (clone queryPattern) nested profileText, true)
    else
      let r := parallelRewriter nested changed
      (.RamIndexScan rel ident queryPattern r.1 profileText, r.2)
  | .RamIndexChoice rel ident condition queryPattern nested profileText, changed =>
    if ident = 0 then
      (.RamParallelIndexChoice rel ident condition (clone queryPattern) nested profileText,
        true)
    else
      let r := parallelRewriter nested changed
      (.RamIndexChoice rel ident condition queryPattern r.1 profileText, r.2)
  | .RamAggregate nested function rel expression condition ident, changed =>
    if ident = 0 ∧ rel.isNullary = false then
      (.RamParallelAggregate nested function rel expression condition ident, true)
    else
      let r := parallelRewriter nested changed
      (.RamAggregate r.1 function rel expression condition ident, r.2)
  | .RamIndexAggregate nested function rel expression condition queryPattern ident, changed =>
    if ident = 0 ∧ rel.isNullary = false then
      (.RamParallelIndexAggregate nested function rel expression condition
        (clone queryPattern) ident, true)
    else
      let r := parallelRewriter nested changed
      (.RamIndexAggregate r.1 function rel expression condition queryPattern ident, r.2)
  | .RamParallelScan rel ident nested profileText, changed =>
    let r := parallelRewriter nested changed
    (.RamParallelScan rel ident r.1 profileText, r.2)
  | .RamParallelChoice rel ident condition nested profileText, changed =>
    let r := parallelRewriter nested changed
    (.RamParallelChoice rel ident condition r.1 profileText, r.2)
  | .RamParallelIndexScan rel ident queryPattern nested profileText, changed =>
    let r := parallelRewriter nested changed
    (.RamParallelIndexScan rel ident queryPattern r.1 profileText, r.2)
  | .RamParallelIndexChoice rel ident condition queryPattern nested profileText, changed =>
    let r := parallelRewriter nested changed
    (.RamParallelIndexChoice rel ident condition queryPattern r.1 profileText, r.2)
  | .RamParallelAggregate nested function rel expression condition ident, changed =>
    let r := parallelRewriter nested changed
    (.RamParallelAggregate r.1 function rel expression condition ident, r.2)
  | .RamParallelIndexAggregate nested function rel expression condition queryPattern ident,
      changed =>
    let r := parallelRewriter nested changed
    (.RamParallelIndexAggregate r.1 function rel expression condition queryPattern ident, r.2)
  | .RamUnpackRecord nested ident expression arity, changed =>
    let r := parallelRewriter nested changed
    (.RamUnpackRecord r.1 ident expression arity, r.2)
  | .RamFilter condition nested profileText, changed =>
    let r := parallelRewriter nested changed
    (.RamFilter condition r.1 profileText, r.2)
  | .RamBreak condition nested profileText, changed =>
    let r := parallelRewriter nested changed
    (.RamBreak condition r.1 profileText, r.2)
  | .RamProject rel expressions, changed => (.RamProject rel expressions, changed)
  | .RamSubroutineReturnValue expressions, changed =>
    (.RamSubroutineReturnValue expressions, changed)

/-- The body of the visitor lambda: `query.apply(makeLambdaRamMapper(parallelRewriter))`
replaces the operation of the query by the rewriter's result on it. -/
def rewriteQuery (operation : RamOperation) (changed : Bool) : RamStatement × Bool :=
  let r := parallelRewriter operation changed
  (.RamQuery r.1, r.2)

mutual
/-- The traversal `visitDepthFirst` restricted to what the visitor lambda reacts to: every
`RamQuery` below a statement is handed to the lambda, in depth-first order; the other
statements are kept, with their children visited. -/
def visitStatement : RamStatement → Bool → RamStatement × Bool
  | .RamSequence statements, changed =>
    let r := visitStatements statements changed
    (.RamSequence r.1, r.2)
  | .RamParallel statements, changed =>
    let r := visitStatements statements changed
    (.RamParallel r.1, r.2)
  | .RamLoop body, changed =>
    let r := visitStatement body changed
    (.RamLoop r.1, r.2)
  | .RamExit condition, changed => (.RamExit condition, changed)
  | .RamQuery operation, changed => rewriteQuery operation changed
  | .RamLogTimer statement message, changed =>
    let r := visitStatement statement changed
    (.RamLogTimer r.1 message, r.2)
  | .RamDebugInfo statement message, changed =>
    let r := visitStatement statement changed
    (.RamDebugInfo r.1 message, r.2)
  | .RamClear rel, changed => (.RamClear rel, changed)
  | .RamSwap first second, changed => (.RamSwap first second, changed)
/-- The traversal over the children of a statement, from first to last. -/
def visitStatements : List RamStatement → Bool → List RamStatement × Bool
  | [], changed => ([], changed)
  | statement :: rest, changed =>
    let r := visitStatement statement changed
    let rs := visitStatements rest r.2
    (r.1 :: rs.1, rs.2)
end

/-- The traversal over the subroutines of a program. -/
def visitSubroutines : List (String × RamStatement) → Bool → List (String × RamStatement) × Bool
  | [], changed => ([], changed)
  | (name, statement) :: rest, changed =>
    let r := visitStatement statement changed
    let rs := visitSubroutines rest r.2
    ((name, r.1) :: rs.1, rs.2)

/-- The transform `ParallelTransformer::parallelizeOperations`: the flag starts as `false`,
every query of the program (main statement, then subroutines) is rewritten, and the flag is
returned together with the program as it has been mutated. -/
def ParallelTransformer.parallelizeOperations (program : RamProgram) : RamProgram × Bool :=
  let m := visitStatement program.main false
  let s := visitSubroutines program.subroutines m.2
  ({ relations := program.relations, main := m.1, subroutines := s.1 }, s.2)

/-! ## Observing a program: the roots of its queries -/

mutual
/-- The operations at the roots of the queries below a statement, in visiting order. -/
def statementQueries : RamStatement → List RamOperation
  | .RamSequence statements => statementsQueries statements
  | .RamParallel statements => statementsQueries statements
  | .RamLoop body => statementQueries body
  | .RamExit _ => []
  | .RamQuery operation => [operation]
  | .RamLogTimer statement _ => statementQueries statement
  | .RamDebugInfo statement _ => statementQueries statement
  | .RamClear _ => []
  | .RamSwap _ _ => []
/-- The roots of the queries below a list of statements. -/
def statementsQueries : List RamStatement → List RamOperation
  | [] => []
  | statement :: rest => statementQueries statement ++ statementsQueries rest
end

/-- The roots of the queries of the subroutines. -/
def subroutineQueries : List (String × RamStatement) → List RamOperation
  | [] => []
  | (_, statement) :: rest => statementQueries statement ++ subroutineQueries rest

/-- The roots of all queries of a program, in the order the transform visits them. -/
def RamProgram.queries (program : RamProgram) : List RamOperation :=
  statementQueries program.main ++ subroutineQueries program.subroutines

/-- The number of loop nodes (of the six sequential kinds) with tuple id 0 in an operation
tree. -/
def slotZeroLoops : RamOperation → Nat
  | .RamScan _ ident nested _ => (if ident = 0 then 1 else 0) + slotZeroLoops nested
  | .RamChoice _ ident _ nested _ => (if ident = 0 then 1 else 0) + slotZeroLoops nested
  | .RamIndexScan _ ident _ nested _ => (if ident = 0 then 1 else 0) + slotZeroLoops nested
  | .RamIndexChoice _ ident _ _ nested _ => (if ident = 0 then 1 else 0) + slotZeroLoops nested
  | .RamAggregate nested _ _ _ _ ident => (if ident = 0 then 1 else 0) + slotZeroLoops nested
  | .RamIndexAggregate nested _ _ _ _ _ ident =>
    (if ident = 0 then 1 else 0) + slotZeroLoops nested
  | .RamParallelScan _ _ nested _ => slotZeroLoops nested
  | .RamParallelChoice _ _ _ nested _ => slotZeroLoops nested
  | .RamParallelIndexScan _ _ _ nested _ => slotZeroLoops nested
  | .RamParallelIndexChoice _ _ _ _ nested _ => slotZeroLoops nested
  | .RamParallelAggregate nested _ _ _ _ _ => slotZeroLoops nested
  | .RamParallelIndexAggregate nested _ _ _ _ _ _ => slotZeroLoops nested
  | .RamUnpackRecord nested _ _ _ => slotZeroLoops nested
  | .RamFilter _ nested _ => slotZeroLoops nested
  | .RamBreak _ nested _ => slotZeroLoops nested
  | .RamProject _ _ => 0
  | .RamSubroutineReturnValue _ => 0

/-! ## The relation store (`LVMRelation.h`)

The header declares the relation classes; the bodies of their member functions and the index
class `LVMIndex` are not part of the sources at hand and are modelled from the specification.
-/

/-- A tuple reference `TupleRef`: the values of the tuple, in column order. -/
abbrev TupleRef := List RamDomain

/-- The comparison of two tuples under a column order: lexicographic on the listed columns. -/
def tupleLessEq : List Nat → TupleRef → TupleRef → Bool
  | [], _, _ => true
  | column :: rest, a, b =>
    if a.getD column 0 < b.getD column 0 then true
    else if b.getD column 0 < a.getD column 0 then false
    else tupleLessEq rest a b

/-- Modelled from the spec: the class `LVMIndex` is missing from the sources.  An ordered
index: a column order and the tuples it holds, kept in the order of their keys; it supports
insertion, membership test, size, clearing and ordered traversal. -/
structure LVMIndex where
  order : List Nat
  tuples : List TupleRef
  deriving DecidableEq

/-- Modelled from the spec: the default index factory `createBTreeIndex` is missing from the
sources; it yields an empty index for an order. -/
def createBTreeIndex (order : List Nat) : LVMIndex := { order := order, tuples := [] }

/-- Modelled from the spec: the membership test of an ordered index. -/
def LVMIndex.contains (index : LVMIndex) (tuple : TupleRef) : Bool :=
  decide (tuple ∈ index.tuples)

/-- Modelled from the spec: insertion into an ordered index; the tuple is placed by its key,
a tuple already held is not added again, and the result tells whether the tuple was added. -/
def LVMIndex.insert (index : LVMIndex) (tuple : TupleRef) : Bool × LVMIndex :=
  if index.contains tuple then (false, index)
  else (true, { index with
    tuples := List.orderedInsert (fun a b => tupleLessEq index.order a b = true) tuple
      index.tuples })

/-- Modelled from the spec: the number of tuples of an index. -/
def LVMIndex.size (index : LVMIndex) : Nat := index.tuples.length

/-- Modelled from the spec: whether an index holds no tuple. -/
def LVMIndex.empty (index : LVMIndex) : Bool := index.tuples.isEmpty

/-- Modelled from the spec: clearing an index keeps its order and drops its tuples. -/
def LVMIndex.clear (index : LVMIndex) : LVMIndex := { index with tuples := [] }

/-- Modelled from the spec: the ordered traversal of an index. -/
def LVMIndex.scan (index : LVMIndex) : List TupleRef := index.tuples

/-- Modelled from the spec: `MinIndexSelection` is missing from the sources; the index
selection supplies the column orders to materialize and which of them is the main one. -/
structure MinIndexSelection where
  orders : List (List Nat)
  main : Nat
  deriving DecidableEq

/-- The class `LVMRelation`, with the fields the header declares.  The pointer `main` into
the managed indexes is the position of the main index in `indexes`. -/
structure LVMRelation where
  relName : String
  arity : Nat
  numberOfHeights : Nat
  attributeTypes : List String
  indexes : List LVMIndex
  main : Nat
  level : Nat
  deriving DecidableEq

/-- Modelled from the spec: the body of the constructor of `LVMRelation` is missing from the
sources.  It builds one index per order of the selection with the factory; the level is 0 as
in the header. -/
def LVMRelation.create (arity numberOfHeights : Nat) (name : String)
    (attributeTypes : List String) (orderSet : MinIndexSelection)
    (factory : List Nat → LVMIndex) : LVMRelation :=
  { relName := name
    arity := arity
    numberOfHeights := numberOfHeights
    attributeTypes := attributeTypes
    indexes := orderSet.orders.map factory
    main := orderSet.main
    level := 0 }

/-- The main index of a relation; there is none when `main` does not designate a managed
index. -/
def LVMRelation.mainIndex (r : LVMRelation) : Option LVMIndex := r.indexes[r.main]?

/-- Modelled from the spec: the body of `LVMRelation::insert(const TupleRef&)` is missing from
the sources.  A tuple whose length is not the arity is a fatal precondition violation (`none`);
whether the tuple is new is decided by a membership test against the main index, and a new
tuple is inserted into every maintained index. -/
def LVMRelation.insert (r : LVMRelation) (tuple : TupleRef) : Option (Bool × LVMRelation) :=
  if tuple.length ≠ r.arity then none
  else
    match r.mainIndex with
    | none => none
    | some mainIndex =>
      if mainIndex.contains tuple then some (false, r)
      else some (true, { r with indexes := r.indexes.map fun index => (index.insert tuple).2 })

/-- Modelled from the spec: the body of `LVMRelation::contains` is missing from the sources;
it delegates to the lookup of the main index. -/
def LVMRelation.contains (r : LVMRelation) (tuple : TupleRef) : Option Bool :=
  r.mainIndex.map fun mainIndex => mainIndex.contains tuple

/-- Modelled from the spec: the body of `LVMRelation::exists` is missing from the sources; it
delegates to the lookup of the main index. -/
def LVMRelation.exists (r : LVMRelation) (tuple : TupleRef) : Option Bool :=
  r.mainIndex.map fun mainIndex => mainIndex.contains tuple

/-- Modelled from the spec: the body of `LVMRelation::scan` is missing from the sources; the
sequence of the tuples of the main index in its key order. -/
def LVMRelation.scan (r : LVMRelation) : Option (List TupleRef) :=
  r.mainIndex.map LVMIndex.scan

/-- Modelled from the spec: the body of `LVMRelation::size` is missing from the sources; the
number of tuples of the main index. -/
def LVMRelation.size (r : LVMRelation) : Option Nat := r.mainIndex.map LVMIndex.size

/-- Modelled from the spec: the body of `LVMRelation::empty` is missing from the sources. -/
def LVMRelation.empty (r : LVMRelation) : Option Bool := r.mainIndex.map LVMIndex.empty

/-- Modelled from the spec: the body of `LVMRelation::purge` is missing from the sources; it
empties every index and leaves the schema metadata. -/
def LVMRelation.purge (r : LVMRelation) : LVMRelation :=
  { r with indexes := r.indexes.map LVMIndex.clear }

/-- Modelled from the spec: the body of `LVMRelation::swap` is missing from the sources; it
exchanges the entire index set and the metadata of the two relations.  The result is the pair
of this relation and the other one after the call. -/
def LVMRelation.swap (r other : LVMRelation) : LVMRelation × LVMRelation :=
  ({ relName := other.relName
     arity := other.arity
     numberOfHeights := other.numberOfHeights
     attributeTypes := other.attributeTypes
     indexes := other.indexes
     main := other.main
     level := other.level },
   { relName := r.relName
     arity := r.arity
     numberOfHeights := r.numberOfHeights
     attributeTypes := r.attributeTypes
     indexes := r.indexes
     main := r.main
     level := r.level })

/-- The accessor `LVMRelation::getName`. -/
def LVMRelation.getName (r : LVMRelation) : String := r.relName

/-- The accessor `LVMRelation::getArity`. -/
def LVMRelation.getArity (r : LVMRelation) : Nat := r.arity

/-- The accessor `LVMRelation::getAttributeTypeQualifiers`. -/
def LVMRelation.getAttributeTypeQualifiers (r : LVMRelation) : List String := r.attributeTypes

/-- The accessor `LVMRelation::getNumberOfHeights`. -/
def LVMRelation.getNumberOfHeights (r : LVMRelation) : Nat := r.numberOfHeights

/-- The accessor `LVMRelation::getLevel`. -/
def LVMRelation.getLevel (r : LVMRelation) : Nat := r.level

/-- The member `LVMRelation::setLevel`. -/
def LVMRelation.setLevel (r : LVMRelation) (level : Nat) : LVMRelation :=
  { r with level := level }

/-- Single-tuple inserts, one after the other; the first fatal one stops the run. -/
def LVMRelation.insertTuples : LVMRelation → List TupleRef → Option LVMRelation
  | r, [] => some r
  | r, tuple :: rest =>
    match r.insert tuple with
    | none => none
    | some (_, next) => next.insertTuples rest

/-! ## The equivalence relation (`LVMEqRelation`) -/

/-- Modelled from the spec: the body of the constructor of `LVMEqRelation` is missing from the
sources; an equivalence relation is a relation built with the default index factory. -/
def LVMEqRelation.create (arity numberOfHeights : Nat) (relName : String)
    (attributeTypes : List String) (orderSet : MinIndexSelection) : LVMRelation :=
  LVMRelation.create arity numberOfHeights relName attributeTypes orderSet createBTreeIndex

/-- Whether a stored tuple shares a component with the values collected so far. -/
def sharesComponent (cls : List RamDomain) (tuple : TupleRef) : Bool :=
  tuple.any fun value => decide (value ∈ cls)

/-- One round of the join: the components of every stored tuple that shares a component with
the values collected so far are added to them. -/
def joinStep (stored : List TupleRef) (cls : List RamDomain) : List RamDomain :=
  cls ++ (stored.filter (sharesComponent cls)).flatten

/-- The fixpoint join: rounds are run until a round adds no value; `fuel` bounds the number of
rounds. -/
def joinClosure : Nat → List TupleRef → List RamDomain → List RamDomain
  | 0, _, cls => cls
  | fuel + 1, stored, cls =>
    if (joinStep stored cls).all (fun value => decide (value ∈ cls)) then cls
    else joinClosure fuel stored (joinStep stored cls)

/-- Modelled from the spec: the body of `LVMEqRelation::extend(const TupleRef&)` is missing
from the sources.  The relation is scanned for the tuples sharing a component with the new
one, the closure of the classes reachable through shared components is computed by a fixpoint
join (one round per stored tuple at most, and a last one that adds nothing), and every tuple
over the merged class that the relation does not hold yet is produced. -/
def LVMEqRelation.extend (r : LVMRelation) (tuple : TupleRef) : Option (List TupleRef) :=
  r.scan.map fun stored =>
    let cls := joinClosure (stored.length + 1) stored tuple
    (cls.flatMap fun u => cls.map fun v => [u, v]).filter fun implied =>
      !decide (implied ∈ stored)

/-- Modelled from the spec: the body of `LVMEqRelation::insert` is missing from the sources.
The tuple is a pair describing a merge of two classes (the behaviour on other tuples is not
specified: `none`); the tuples produced by `extend`, then the tuple itself, are inserted with
the insert of the base class.  The result tells whether the tuple was new. -/
def LVMEqRelation.insert (r : LVMRelation) (tuple : TupleRef) : Option (Bool × LVMRelation) :=
  match tuple with
  | [_, _] =>
    match r.exists tuple, LVMEqRelation.extend r tuple with
    | some present, some newTuples =>
      (r.insertTuples (newTuples ++ [tuple])).map fun next => (!present, next)
    | _, _ => none
  | _ => none

/-- Inserts of pairs into an equivalence relation, one after the other. -/
def LVMEqRelation.insertPairs : LVMRelation → List (RamDomain × RamDomain) → Option LVMRelation
  | r, [] => some r
  | r, (a, b) :: rest =>
    match LVMEqRelation.insert r [a, b] with
    | none => none
    | some (_, next) => LVMEqRelation.insertPairs next rest

/-- The reference union-find, in its quick-find form: every value that has been added is
mapped to the representative of its class. -/
structure UnionFind where
  rep : RamDomain → Option RamDomain

/-- The union-find without any value. -/
def UnionFind.empty : UnionFind := { rep := fun _ => none }

/-- The representative of the class of a value, if the value has been added. -/
def UnionFind.find (uf : UnionFind) (value : RamDomain) : Option RamDomain := uf.rep value

/-- Adds a value as a class of its own, unless the value is there already. -/
def UnionFind.makeSet (uf : UnionFind) (value : RamDomain) : UnionFind :=
  match uf.find value with
  | some _ => uf
  | none => { rep := fun other => if other = value then some value else uf.rep other }

/-- Merges the classes of two values, adding the values first if needed: every value of the
class of the first one is given the representative of the second one. -/
def UnionFind.union (uf : UnionFind) (a b : RamDomain) : UnionFind :=
  let added := (uf.makeSet a).makeSet b
  { rep := fun other => if added.find other = added.find a then added.find b
      else added.find other }

/-- Whether two values are in the same class of the union-find. -/
def UnionFind.sameClass (uf : UnionFind) (a b : RamDomain) : Bool :=
  match uf.find a, uf.find b with
  | some ra, some rb => decide (ra = rb)
  | _, _ => false

/-- The union-find obtained from a sequence of pairs, merged one after the other. -/
def UnionFind.unionAll (pairs : List (RamDomain × RamDomain)) : UnionFind :=
  pairs.foldl (fun uf pair => uf.union pair.1 pair.2) UnionFind.empty

/-- The representatives of a union-find are their own representatives. -/
def UnionFind.Valid (uf : UnionFind) : Prop :=
  ∀ value r, uf.rep value = some r → uf.rep r = some r

/-! ## Dropping an index, bulk insertion -/

/-- The kinds of operation nodes. -/
inductive OperationKind where
  | scan | parallelScan | choice | parallelChoice | indexScan | parallelIndexScan
  | indexChoice | parallelIndexChoice | aggregate | parallelAggregate | indexAggregate
  | parallelIndexAggregate | unpackRecord | filter | breakOp | project | subroutineReturnValue
  deriving DecidableEq

/-- The kind of an operation node. -/
def RamOperation.kind : RamOperation → OperationKind
  | .RamScan _ _ _ _ => .scan
  | .RamParallelScan _ _ _ _ => .parallelScan
  | .RamChoice _ _ _ _ _ => .choice
  | .RamParallelChoice _ _ _ _ _ => .parallelChoice
  | .RamIndexScan _ _ _ _ _ => .indexScan
  | .RamParallelIndexScan _ _ _ _ _ => .parallelIndexScan
  | .RamIndexChoice _ _ _ _ _ _ => .indexChoice
  | .RamParallelIndexChoice _ _ _ _ _ _ => .parallelIndexChoice
  | .RamAggregate _ _ _ _ _ _ => .aggregate
  | .RamParallelAggregate _ _ _ _ _ _ => .parallelAggregate
  | .RamIndexAggregate _ _ _ _ _ _ _ => .indexAggregate
  | .RamParallelIndexAggregate _ _ _ _ _ _ _ => .parallelIndexAggregate
  | .RamUnpackRecord _ _ _ _ => .unpackRecord
  | .RamFilter _ _ _ => .filter
  | .RamBreak _ _ _ => .breakOp
  | .RamProject _ _ => .project
  | .RamSubroutineReturnValue _ => .subroutineReturnValue

/-- Whether a node is of one of the six sequential loop kinds. -/
def RamOperation.isSequentialLoop : RamOperation → Bool
  | .RamScan _ _ _ _ => true
  | .RamChoice _ _ _ _ _ => true
  | .RamIndexScan _ _ _ _ _ => true
  | .RamIndexChoice _ _ _ _ _ _ => true
  | .RamAggregate _ _ _ _ _ _ => true
  | .RamIndexAggregate _ _ _ _ _ _ _ => true
  | _ => false

/-- The accessor `getTupleId` of the nodes that bind a tuple. -/
def RamOperation.getTupleId : RamOperation → Option Int
  | .RamScan _ ident _ _ => some ident
  | .RamParallelScan _ ident _ _ => some ident
  | .RamChoice _ ident _ _ _ => some ident
  | .RamParallelChoice _ ident _ _ _ => some ident
  | .RamIndexScan _ ident _ _ _ => some ident
  | .RamParallelIndexScan _ ident _ _ _ => some ident
  | .RamIndexChoice _ ident _ _ _ _ => some ident
  | .RamParallelIndexChoice _ ident _ _ _ _ => some ident
  | .RamAggregate _ _ _ _ _ ident => some ident
  | .RamParallelAggregate _ _ _ _ _ ident => some ident
  | .RamIndexAggregate _ _ _ _ _ _ ident => some ident
  | .RamParallelIndexAggregate _ _ _ _ _ _ ident => some ident
  | .RamUnpackRecord _ ident _ _ => some ident
  | _ => none

/-- The accessor `getOperation` of the nodes that nest an operation: the one child of a node
that is an operation. -/
def RamOperation.getOperation : RamOperation → Option RamOperation
  | .RamScan _ _ nested _ => some nested
  | .RamParallelScan _ _ nested _ => some nested
  | .RamChoice _ _ _ nested _ => some nested
  | .RamParallelChoice _ _ _ nested _ => some nested
  | .RamIndexScan _ _ _ nested _ => some nested
  | .RamParallelIndexScan _ _ _ nested _ => some nested
  | .RamIndexChoice _ _ _ _ nested _ => some nested
  | .RamParallelIndexChoice _ _ _ _ nested _ => some nested
  | .RamAggregate nested _ _ _ _ _ => some nested
  | .RamParallelAggregate nested _ _ _ _ _ => some nested
  | .RamIndexAggregate nested _ _ _ _ _ _ => some nested
  | .RamParallelIndexAggregate nested _ _ _ _ _ _ => some nested
  | .RamUnpackRecord nested _ _ _ => some nested
  | .RamFilter _ nested _ => some nested
  | .RamBreak _ nested _ => some nested
  | .RamProject _ _ => none
  | .RamSubroutineReturnValue _ => none

/-- The node found `depth` levels below a node, following the nested operations. -/
def RamOperation.descendant : Nat → RamOperation → Option RamOperation
  | 0, node => some node
  | depth + 1, node =>
    match node.getOperation with
    | none => none
    | some nested => RamOperation.descendant depth nested

/-- The eligibility rule of a loop node, kind by kind: a scan needs a relation of arity > 0
and a nested operation that is not a projection, an aggregate or index-aggregate a relation
that is not nullary; the other kinds are always eligible. -/
def RamOperation.eligible : RamOperation → Bool
  | .RamScan rel _ nested _ => decide (rel.getArity > 0) && !isRamProject nested
  | .RamAggregate _ _ rel _ _ _ => !rel.isNullary
  | .RamIndexAggregate _ _ rel _ _ _ _ => !rel.isNullary
  | _ => true

/-- A node is promotable when it is of one of the six sequential loop kinds, its tuple id
is 0 and it satisfies the eligibility rule of its kind. -/
def RamOperation.promotable (node : RamOperation) : Bool :=
  node.isSequentialLoop && decide (node.getTupleId = some 0) && node.eligible

/-- The parallel counterpart of a node of one of the six sequential loop kinds, with the same
fields; any other node as it is. -/
def RamOperation.promote : RamOperation → RamOperation
  | .RamScan rel ident nested profileText => .RamParallelScan rel ident nested profileText
  | .RamChoice rel ident condition nested profileText =>
    .RamParallelChoice rel ident condition nested profileText
  | .RamIndexScan rel ident queryPattern nested profileText =>
    .RamParallelIndexScan rel ident queryPattern nested profileText
  | .RamIndexChoice rel ident condition queryPattern nested profileText =>
    .RamParallelIndexChoice rel ident condition queryPattern nested profileText
  | .RamAggregate nested function rel expression condition ident =>
    .RamParallelAggregate nested function rel expression condition ident
  | .RamIndexAggregate nested function rel expression condition queryPattern ident =>
    .RamParallelIndexAggregate nested function rel expression condition queryPattern ident
  | node => node

/-- Modelled from the spec: the member `apply` of the operation nodes is missing from the
sources; a node exposes `apply` for recursing into, and replacing, its children.  Here for a
mapper that carries a flag: the mapper is applied to the nested operation of the node, if it
has one, and the node holds the result. -/
def RamOperation.apply (node : RamOperation)
    (mapper : RamOperation → Bool → RamOperation × Bool) (changed : Bool) :
    RamOperation × Bool :=
  match node with
  | .RamScan rel ident nested profileText =>
    (.RamScan rel ident (mapper nested changed).1 profileText,
      (mapper nested changed).2)
  | .RamParallelScan rel ident nested profileText =>
    (.RamParallelScan rel ident (mapper nested changed).1 profileText,
      (mapper nested changed).2)
  | .RamChoice rel ident condition nested profileText =>
    (.RamChoice rel ident condition (mapper nested changed).1 profileText,
      (mapper nested changed).2)
  | .RamParallelChoice rel ident condition nested profileText =>
    (.RamParallelChoice rel ident condition (mapper nested changed).1 profileText,
      (mapper nested changed).2)
  | .RamIndexScan rel ident queryPattern nested profileText =>
    (.RamIndexScan rel ident queryPattern (mapper nested changed).1 profileText,
      (mapper nested changed).2)
  | .RamParallelIndexScan rel ident queryPattern nested profileText =>
    (.RamParallelIndexScan rel ident queryPattern (mapper nested changed).1 profileText,
      (mapper nested changed).2)
  | .RamIndexChoice rel ident condition queryPattern nested profileText =>
    (.RamIndexChoice rel ident condition queryPattern (mapper nested changed).1 profileText,
      (mapper nested changed).2)
  | .RamParallelIndexChoice rel ident condition queryPattern nested profileText =>
    (.RamParallelIndexChoice rel ident condition queryPattern (mapper nested changed).1
      profileText, (mapper nested changed).2)
  | .RamAggregate nested function rel expression condition ident =>
    (.RamAggregate (mapper nested changed).1 function rel expression condition ident,
      (mapper nested changed).2)
  | .RamParallelAggregate nested function rel expression condition ident =>
    (.RamParallelAggregate (mapper nested changed).1 function rel expression condition ident,
      (mapper nested changed).2)
  | .RamIndexAggregate nested function rel expression condition queryPattern ident =>
    (.RamIndexAggregate (mapper nested changed).1 function rel expression condition
      queryPattern ident, (mapper nested changed).2)
  | .RamParallelIndexAggregate nested function rel expression condition queryPattern ident =>
    (.RamParallelIndexAggregate (mapper nested changed).1 function rel expression condition
      queryPattern ident, (mapper nested changed).2)
  | .RamUnpackRecord nested ident expression arity =>
    (.RamUnpackRecord (mapper nested changed).1 ident expression arity,
      (mapper nested changed).2)
  | .RamFilter condition nested profileText =>
    (.RamFilter condition (mapper nested changed).1 profileText, (mapper nested changed).2)
  | .RamBreak condition nested profileText =>
    (.RamBreak condition (mapper nested changed).1 profileText, (mapper nested changed).2)
  | .RamProject rel expressions => (.RamProject rel expressions, changed)
  | .RamSubroutineReturnValue expressions => (.RamSubroutineReturnValue expressions, changed)

/-! ## Erasing the parallel kinds -/

/-- The operation tree with every parallel loop kind mapped back to its sequential kind, all
fields kept. -/
def RamOperation.sequential : RamOperation → RamOperation
  | .RamScan rel ident nested profileText =>
    .RamScan rel ident nested.sequential profileText
  | .RamParallelScan rel ident nested profileText =>
    .RamScan rel ident nested.sequential profileText
  | .RamChoice rel ident condition nested profileText =>
    .RamChoice rel ident condition nested.sequential profileText
  | .RamParallelChoice rel ident condition nested profileText =>
    .RamChoice rel ident condition nested.sequential profileText
  | .RamIndexScan rel ident queryPattern nested profileText =>
    .RamIndexScan rel ident queryPattern nested.sequential profileText
  | .RamParallelIndexScan rel ident queryPattern nested profileText =>
    .RamIndexScan rel ident queryPattern nested.sequential profileText
  | .RamIndexChoice rel ident condition queryPattern nested profileText =>
    .RamIndexChoice rel ident condition queryPattern nested.sequential profileText
  | .RamParallelIndexChoice rel ident condition queryPattern nested profileText =>
    .RamIndexChoice rel ident condition queryPattern nested.sequential profileText
  | .RamAggregate nested function rel expression condition ident =>
    .RamAggregate nested.sequential function rel expression condition ident
  | .RamParallelAggregate nested function rel expression condition ident =>
    .RamAggregate nested.sequential function rel expression condition ident
  | .RamIndexAggregate nested function rel expression condition queryPattern ident =>
    .RamIndexAggregate nested.sequential function rel expression condition queryPattern ident
  | .RamParallelIndexAggregate nested function rel expression condition queryPattern ident =>
    .RamIndexAggregate nested.sequential function rel expression condition queryPattern ident
  | .RamUnpackRecord nested ident expression arity =>
    .RamUnpackRecord nested.sequential ident expression arity
  | .RamFilter condition nested profileText => .RamFilter condition nested.sequential profileText
  | .RamBreak condition nested profileText => .RamBreak condition nested.sequential profileText
  | .RamProject rel expressions => .RamProject rel expressions
  | .RamSubroutineReturnValue expressions => .RamSubroutineReturnValue expressions

mutual
/-- The statement with the parallel loop kinds of its queries mapped back to their sequential
kinds. -/
def RamStatement.sequential : RamStatement → RamStatement
  | .RamSequence statements => .RamSequence (sequentialStatements statements)
  | .RamParallel statements => .RamParallel (sequentialStatements statements)
  | .RamLoop body => .RamLoop body.sequential
  | .RamExit condition => .RamExit condition
  | .RamQuery operation => .RamQuery operation.sequential
  | .RamLogTimer statement message => .RamLogTimer statement.sequential message
  | .RamDebugInfo statement message => .RamDebugInfo statement.sequential message
  | .RamClear rel => .RamClear rel
  | .RamSwap first second => .RamSwap first second
/-- The same on a list of statements. -/
def sequentialStatements : List RamStatement → List RamStatement
  | [] => []
  | statement :: rest => statement.sequential :: sequentialStatements rest
end

/-- The same on the subroutines of a program. -/
def sequentialSubroutines : List (String × RamStatement) → List (String × RamStatement)
  | [] => []
  | (name, statement) :: rest => (name, statement.sequential) :: sequentialSubroutines rest

/-- The program with every parallel loop kind mapped back to its sequential kind. -/
def RamProgram.sequential (program : RamProgram) : RamProgram :=
  { relations := program.relations
    main := program.main.sequential
    subroutines := sequentialSubroutines program.subroutines }

/-- Modelled from the spec: the body of `LVMRelation::insert(const LVMRelation&)` is missing
from the sources; every tuple of the full scan of the other relation is inserted with the
single-tuple insert, which skips the tuples already held. -/
def LVMRelation.insertRelation (r other : LVMRelation) : Option LVMRelation :=
  match other.scan with
  | none => none
  | some tuples => r.insertTuples tuples

/-- The relations obtained from freshly constructed relations by sequences of `insert(tuple)`,
`insert(otherRelation)`, `purge` and `swap`, the other relation of a bulk insert or of a swap
being obtained in the same way. -/
inductive LVMRelation.Reachable : LVMRelation → Prop where
  | fresh (arity numberOfHeights : Nat) (name : String) (attributeTypes : List String)
      (orderSet : MinIndexSelection) (horders : orderSet.main < orderSet.orders.length) :
      LVMRelation.Reachable
        (LVMRelation.create arity numberOfHeights name attributeTypes orderSet createBTreeIndex)
  | insert (r : LVMRelation) (tuple : TupleRef) (added : Bool) (next : LVMRelation)
      (hr : LVMRelation.Reachable r) (hstep : r.insert tuple = some (added, next)) :
      LVMRelation.Reachable next
  | insertRelation (r other next : LVMRelation) (hr : LVMRelation.Reachable r)
      (hother : LVMRelation.Reachable other) (hstep : r.insertRelation other = some next) :
      LVMRelation.Reachable next
  | purge (r : LVMRelation) (hr : LVMRelation.Reachable r) : LVMRelation.Reachable r.purge
  | swapThis (r other : LVMRelation) (hr : LVMRelation.Reachable r)
      (hother : LVMRelation.Reachable other) : LVMRelation.Reachable (r.swap other).1
  | swapOther (r other : LVMRelation) (hr : LVMRelation.Reachable r)
      (hother : LVMRelation.Reachable other) : LVMRelation.Reachable (r.swap other).2

/-- Index lockstep: the main pointer designates a maintained index, and any two maintained
indexes hold the same tuples and as many of them. -/
def LVMRelation.Lockstep (r : LVMRelation) : Prop :=
  r.main < r.indexes.length
    ∧ ∀ first ∈ r.indexes, ∀ second ∈ r.indexes,
        (∀ tuple, tuple ∈ first.tuples ↔ tuple ∈ second.tuples)
          ∧ first.tuples.length = second.tuples.length

/-! ## Sample programs and relations -/

/-- A program with two queries, the second one a scan at slot 0 over a binary relation whose
nested operation is a filter. -/
def scanProgram : RamProgram :=
  { relations := [⟨"edge", 2⟩, ⟨"path", 2⟩]
    main := .RamSequence
      [.RamQuery (.RamProject ⟨"path", 2⟩ [.RamNumber 1, .RamNumber 2]),
       .RamLoop (.RamQuery (.RamScan ⟨"edge", 2⟩ 0
          (.RamFilter .RamTrue
            (.RamProject ⟨"path", 2⟩ [.RamTupleElement 0 0, .RamTupleElement 0 1]) "")
          "scan edge"))]
    subroutines := [] }

/-- A program whose queries are scans directly over a projection: one at slot 0 over a binary
relation in the main statement, one at slot 3 over a nullary relation in a subroutine. -/
def copyProgram : RamProgram :=
  { relations := [⟨"edge", 2⟩, ⟨"path", 2⟩, ⟨"flag", 0⟩]
    main := .RamQuery (.RamScan ⟨"edge", 2⟩ 0
      (.RamProject ⟨"path", 2⟩ [.RamTupleElement 0 0, .RamTupleElement 0 1]) "copy")
    subroutines := [("sub", .RamQuery (.RamScan ⟨"flag", 0⟩ 3 (.RamProject ⟨"flag", 0⟩ []) ""))] }

/-- A relation over pairs with two indexes, the second one the main one, holding `(1, 2)`. -/
def pairRelation : LVMRelation :=
  { relName := "edge"
    arity := 2
    numberOfHeights := 0
    attributeTypes := ["i:number", "i:number"]
    indexes := [{ order := [0, 1], tuples := [[1, 2]] }, { order := [1, 0], tuples := [[1, 2]] }]
    main := 1
    level := 0 }

/-- A choice at slot 0 directly over a projection. -/
def choiceLoop : RamOperation :=
  .RamChoice ⟨"path", 2⟩ 0 .RamTrue
    (.RamProject ⟨"path", 2⟩ [.RamTupleElement 1 0, .RamTupleElement 0 1]) "choice"

/-- A scan at slot 1 over the choice at slot 0. -/
def scanOverChoice : RamOperation := .RamScan ⟨"edge", 2⟩ 1 choiceLoop "scan edge"

/-- A filter over the scan at slot 1 over the choice at slot 0. -/
def filterChain : RamOperation := .RamFilter .RamTrue scanOverChoice ""

/-- A scan at slot 0 over a filter: a promotable loop. -/
def innerScan : RamOperation :=
  .RamScan ⟨"path", 2⟩ 0
    (.RamFilter .RamTrue
      (.RamProject ⟨"path", 2⟩ [.RamTupleElement 0 0, .RamTupleElement 0 1]) "") "inner"

/-- A scan at slot 0 directly over another promotable scan at slot 0. -/
def outerScan : RamOperation := .RamScan ⟨"edge", 2⟩ 0 innerScan "outer"

/-- A program with two queries: in the first one a choice at slot 0 lies beneath a filter and a
scan at slot 1; in the second one a scan at slot 0 lies directly beneath another scan at
slot 0. -/
def nestedProgram : RamProgram :=
  { relations := [⟨"edge", 2⟩, ⟨"path", 2⟩]
    main := .RamSequence [.RamQuery filterChain, .RamQuery outerScan]
    subroutines := [] }

/-- A freshly constructed relation over pairs with two indexes, the second one the main
one. -/
def freshPairRelation : LVMRelation :=
  LVMRelation.create 2 0 "edge" ["i:number", "i:number"] ⟨[[0, 1], [1, 0]], 1⟩ createBTreeIndex

/-! ## General facts on the rewrite -/

theorem clone_eq (pattern : RamPattern) : clone pattern = pattern := by
  unfold clone
  induction pattern with
  | nil => rfl
  | cons c rest ih => cases c <;> simp_all

/-- The tree the rewriter builds does not depend on the incoming flag, and the outgoing flag
is the incoming one or-ed with the flag of a run started from `false`. -/
theorem parallelRewriter_flag (node : RamOperation) (changed : Bool) :
    parallelRewriter node changed
      = ((parallelRewriter node false).1, (changed || (parallelRewriter node false).2)) := by
  induction node generalizing changed with
  | RamProject rel expressions => simp [parallelRewriter]
  | RamSubroutineReturnValue expressions => simp [parallelRewriter]
  | RamScan rel ident nested profileText ih =>
    simp only [parallelRewriter]; split_ifs <;> simp [ih changed]
  | RamChoice rel ident condition nested profileText ih =>
    simp only [parallelRewriter]; split_ifs <;> simp [ih changed]
  | RamIndexScan rel ident queryPattern nested profileText ih =>
    simp only [parallelRewriter]; split_ifs <;> simp [ih changed]
  | RamIndexChoice rel ident condition queryPattern nested profileText ih =>
    simp only [parallelRewriter]; split_ifs <;> simp [ih changed]
  | RamAggregate nested function rel expression condition ident ih =>
    simp only [parallelRewriter]; split_ifs <;> simp [ih changed]
  | RamIndexAggregate nested function rel expression condition queryPattern ident ih =>
    simp only [parallelRewriter]; split_ifs <;> simp [ih changed]
  | RamParallelScan rel ident nested profileText ih =>
    simp only [parallelRewriter]; simp [ih changed]
  | RamParallelChoice rel ident condition nested profileText ih =>
    simp only [parallelRewriter]; simp [ih changed]
  | RamParallelIndexScan rel ident queryPattern nested profileText ih =>
    simp only [parallelRewriter]; simp [ih changed]
  | RamParallelIndexChoice rel ident condition queryPattern nested profileText ih =>
    simp only [parallelRewriter]; simp [ih changed]
  | RamParallelAggregate nested function rel expression condition ident ih =>
    simp only [parallelRewriter]; simp [ih changed]
  | RamParallelIndexAggregate nested function rel expression condition queryPattern ident ih =>
    simp only [parallelRewriter]; simp [ih changed]
  | RamUnpackRecord nested ident expression arity ih =>
    simp only [parallelRewriter]; simp [ih changed]
  | RamFilter condition nested profileText ih =>
    simp only [parallelRewriter]; simp [ih changed]
  | RamBreak condition nested profileText ih =>
    simp only [parallelRewriter]; simp [ih changed]

/-- The run started from `false` that `parallelRewriter_flag` refers to: the rewritten tree. -/
theorem rewriteQuery_eq (operation : RamOperation) (changed : Bool) :
    rewriteQuery operation changed
      = (.RamQuery (parallelRewriter operation false).1,
          (changed || (parallelRewriter operation false).2)) := by
  unfold rewriteQuery
  rw [parallelRewriter_flag operation changed]

mutual
/-- The queries of a visited statement are the rewritten queries of the statement, and the
flag records whether one of them was rewritten with the flag raised. -/
theorem visitStatement_queries (s : RamStatement) (c : Bool) :
    statementQueries (visitStatement s c).1
        = (statementQueries s).map (fun op => (parallelRewriter op false).1)
      ∧ (visitStatement s c).2
        = (c || (statementQueries s).any (fun op => (parallelRewriter op false).2)) := by
  match s with
  | .RamSequence l =>
    have h := visitStatements_queries l c
    simp only [visitStatement, statementQueries]; exact h
  | .RamParallel l =>
    have h := visitStatements_queries l c
    simp only [visitStatement, statementQueries]; exact h
  | .RamLoop b =>
    have h := visitStatement_queries b c
    simp only [visitStatement, statementQueries]; exact h
  | .RamExit _ => simp [visitStatement, statementQueries]
  | .RamQuery op =>
    rw [show visitStatement (.RamQuery op) c = rewriteQuery op c from rfl, rewriteQuery_eq]
    simp [statementQueries]
  | .RamLogTimer b _ =>
    have h := visitStatement_queries b c
    simp only [visitStatement, statementQueries]; exact h
  | .RamDebugInfo b _ =>
    have h := visitStatement_queries b c
    simp only [visitStatement, statementQueries]; exact h
  | .RamClear _ => simp [visitStatement, statementQueries]
  | .RamSwap _ _ => simp [visitStatement, statementQueries]
theorem visitStatements_queries (l : List RamStatement) (c : Bool) :
    statementsQueries (visitStatements l c).1
        = (statementsQueries l).map (fun op => (parallelRewriter op false).1)
      ∧ (visitStatements l c).2
        = (c || (statementsQueries l).any (fun op => (parallelRewriter op false).2)) := by
  match l with
  | [] => simp [visitStatements, statementsQueries]
  | s :: rest =>
    have h1 := visitStatement_queries s c
    have h2 := visitStatements_queries rest (visitStatement s c).2
    simp only [visitStatements, statementsQueries, List.map_append, List.any_append]
    rw [h1.1, h2.1, h2.2, h1.2, Bool.or_assoc]
    exact ⟨rfl, rfl⟩
end

theorem visitSubroutines_queries (l : List (String × RamStatement)) (c : Bool) :
    subroutineQueries (visitSubroutines l c).1
        = (subroutineQueries l).map (fun op => (parallelRewriter op false).1)
      ∧ (visitSubroutines l c).2
        = (c || (subroutineQueries l).any (fun op => (parallelRewriter op false).2)) := by
  induction l generalizing c with
  | nil => simp [visitSubroutines, subroutineQueries]
  | cons p rest ih =>
    obtain ⟨name, s⟩ := p
    have h1 := visitStatement_queries s c
    have h2 := ih (visitStatement s c).2
    simp only [visitSubroutines, subroutineQueries, List.map_append, List.any_append]
    rw [h1.1, h2.1, h2.2, h1.2, Bool.or_assoc]
    exact ⟨rfl, rfl⟩

/-- The queries of the transformed program are the rewritten queries of the program, and the
flag returned tells whether the rewriter raised it on one of them. -/
theorem parallelizeOperations_queries (program : RamProgram) :
    (ParallelTransformer.parallelizeOperations program).1.queries
        = program.queries.map (fun op => (parallelRewriter op false).1)
      ∧ (ParallelTransformer.parallelizeOperations program).2
        = program.queries.any (fun op => (parallelRewriter op false).2) := by
  have h1 := visitStatement_queries program.main false
  have h2 := visitSubroutines_queries program.subroutines (visitStatement program.main false).2
  simp only [ParallelTransformer.parallelizeOperations, RamProgram.queries, List.map_append,
    List.any_append]
  rw [h1.1, h2.1, h2.2, h1.2]
  simp

mutual
/-- A statement all of whose queries the rewriter leaves alone is left alone by the visit. -/
theorem visitStatement_fixed (s : RamStatement) (c : Bool)
    (h : ∀ op ∈ statementQueries s, parallelRewriter op false = (op, false)) :
    visitStatement s c = (s, c) := by
  match s with
  | .RamSequence l =>
    have h1 := visitStatements_fixed l c (by simpa [statementQueries] using h)
    simp [visitStatement, h1]
  | .RamParallel l =>
    have h1 := visitStatements_fixed l c (by simpa [statementQueries] using h)
    simp [visitStatement, h1]
  | .RamLoop b =>
    have h1 := visitStatement_fixed b c (by simpa [statementQueries] using h)
    simp [visitStatement, h1]
  | .RamExit _ => simp [visitStatement]
  | .RamQuery op =>
    have h1 := h op (by simp [statementQueries])
    rw [show visitStatement (.RamQuery op) c = rewriteQuery op c from rfl, rewriteQuery_eq, h1]
    simp
  | .RamLogTimer b _ =>
    have h1 := visitStatement_fixed b c (by simpa [statementQueries] using h)
    simp [visitStatement, h1]
  | .RamDebugInfo b _ =>
    have h1 := visitStatement_fixed b c (by simpa [statementQueries] using h)
    simp [visitStatement, h1]
  | .RamClear _ => simp [visitStatement]
  | .RamSwap _ _ => simp [visitStatement]
theorem visitStatements_fixed (l : List RamStatement) (c : Bool)
    (h : ∀ op ∈ statementsQueries l, parallelRewriter op false = (op, false)) :
    visitStatements l c = (l, c) := by
  match l with
  | [] => simp [visitStatements]
  | s :: rest =>
    have h1 := visitStatement_fixed s c
      (fun op hop => h op (by simp [statementsQueries, hop]))
    have h2 := visitStatements_fixed rest c
      (fun op hop => h op (by simp [statementsQueries, hop]))
    simp [visitStatements, h1, h2]
end

theorem visitSubroutines_fixed (l : List (String × RamStatement)) (c : Bool)
    (h : ∀ op ∈ subroutineQueries l, parallelRewriter op false = (op, false)) :
    visitSubroutines l c = (l, c) := by
  induction l with
  | nil => simp [visitSubroutines]
  | cons p rest ih =>
    obtain ⟨name, s⟩ := p
    have h1 := visitStatement_fixed s c
      (fun op hop => h op (by simp [subroutineQueries, hop]))
    have h2 := ih (fun op hop => h op (by simp [subroutineQueries, hop]))
    simp [visitSubroutines, h1, h2]

/-- A program all of whose queries the rewriter leaves alone comes back as it is, with the
flag `false`. -/
theorem parallelizeOperations_fixed (program : RamProgram)
    (h : ∀ op ∈ program.queries, parallelRewriter op false = (op, false)) :
    ParallelTransformer.parallelizeOperations program = (program, false) := by
  have h1 := visitStatement_fixed program.main false
    (fun op hop => h op (by simp [RamProgram.queries, hop]))
  have h2 := visitSubroutines_fixed program.subroutines false
    (fun op hop => h op (by simp [RamProgram.queries, hop]))
  simp [ParallelTransformer.parallelizeOperations, h1, h2]

/-- An operation tree without a sequential loop at slot 0 is handed back as it is. -/
theorem parallelRewriter_of_no_loop (node : RamOperation) (changed : Bool)
    (h : slotZeroLoops node = 0) : parallelRewriter node changed = (node, changed) := by
  induction node with
  | RamProject rel expressions => simp [parallelRewriter]
  | RamSubroutineReturnValue expressions => simp [parallelRewriter]
  | RamScan rel ident nested profileText ih =>
    simp only [slotZeroLoops] at h
    have h0 : ¬ ident = 0 := by intro h0; simp [h0] at h
    simp [parallelRewriter, h0, ih (by omega)]
  | RamChoice rel ident condition nested profileText ih =>
    simp only [slotZeroLoops] at h
    have h0 : ¬ ident = 0 := by intro h0; simp [h0] at h
    simp [parallelRewriter, h0, ih (by omega)]
  | RamIndexScan rel ident queryPattern nested profileText ih =>
    simp only [slotZeroLoops] at h
    have h0 : ¬ ident = 0 := by intro h0; simp [h0] at h
    simp [parallelRewriter, h0, ih (by omega)]
  | RamIndexChoice rel ident condition queryPattern nested profileText ih =>
    simp only [slotZeroLoops] at h
    have h0 : ¬ ident = 0 := by intro h0; simp [h0] at h
    simp [parallelRewriter, h0, ih (by omega)]
  | RamAggregate nested function rel expression condition ident ih =>
    simp only [slotZeroLoops] at h
    have h0 : ¬ ident = 0 := by intro h0; simp [h0] at h
    simp [parallelRewriter, h0, ih (by omega)]
  | RamIndexAggregate nested function rel expression condition queryPattern ident ih =>
    simp only [slotZeroLoops] at h
    have h0 : ¬ ident = 0 := by intro h0; simp [h0] at h
    simp [parallelRewriter, h0, ih (by omega)]
  | RamParallelScan rel ident nested profileText ih =>
    simp only [slotZeroLoops] at h; simp [parallelRewriter, ih h]
  | RamParallelChoice rel ident condition nested profileText ih =>
    simp only [slotZeroLoops] at h; simp [parallelRewriter, ih h]
  | RamParallelIndexScan rel ident queryPattern nested profileText ih =>
    simp only [slotZeroLoops] at h; simp [parallelRewriter, ih h]
  | RamParallelIndexChoice rel ident condition queryPattern nested profileText ih =>
    simp only [slotZeroLoops] at h; simp [parallelRewriter, ih h]
  | RamParallelAggregate nested function rel expression condition ident ih =>
    simp only [slotZeroLoops] at h; simp [parallelRewriter, ih h]
  | RamParallelIndexAggregate nested function rel expression condition queryPattern ident ih =>
    simp only [slotZeroLoops] at h; simp [parallelRewriter, ih h]
  | RamUnpackRecord nested ident expression arity ih =>
    simp only [slotZeroLoops] at h; simp [parallelRewriter, ih h]
  | RamFilter condition nested profileText ih =>
    simp only [slotZeroLoops] at h; simp [parallelRewriter, ih h]
  | RamBreak condition nested profileText ih =>
    simp only [slotZeroLoops] at h; simp [parallelRewriter, ih h]

/-- The rewriter never turns an operation into a projection or a projection into something
else. -/
theorem isRamProject_parallelRewriter (node : RamOperation) (changed : Bool) :
    isRamProject (parallelRewriter node changed).1 = isRamProject node := by
  cases node <;> simp only [parallelRewriter] <;> (try split_ifs) <;> simp [isRamProject]

/-- On a tree with at most one sequential loop at slot 0, the rewriter hands back its own
output as it is. -/
theorem parallelRewriter_idem (node : RamOperation) (c d : Bool)
    (h : slotZeroLoops node ≤ 1) :
    parallelRewriter (parallelRewriter node c).1 d = ((parallelRewriter node c).1, d) := by
  induction node with
  | RamProject rel expressions => simp [parallelRewriter]
  | RamSubroutineReturnValue expressions => simp [parallelRewriter]
  | RamScan rel ident nested profileText ih =>
    simp only [slotZeroLoops] at h
    by_cases hp : ident = 0 ∧ rel.getArity > 0 ∧ isRamProject nested = false
    · have hn : slotZeroLoops nested = 0 := by simp [hp.1] at h; omega
      simp [parallelRewriter, hp, parallelRewriter_of_no_loop nested d hn]
    · have hq : ¬ (ident = 0 ∧ rel.getArity > 0
          ∧ isRamProject (parallelRewriter nested c).1 = false) := by
        rw [isRamProject_parallelRewriter]; exact hp
      simp only [parallelRewriter, if_neg hp, if_neg hq]
      rw [ih (by omega)]
  | RamChoice rel ident condition nested profileText ih =>
    simp only [slotZeroLoops] at h
    by_cases hp : ident = 0
    · have hn : slotZeroLoops nested = 0 := by simp [hp] at h; omega
      simp [parallelRewriter, hp, parallelRewriter_of_no_loop nested d hn]
    · simp only [parallelRewriter, if_neg hp]
      rw [ih (by omega)]
  | RamIndexScan rel ident queryPattern nested profileText ih =>
    simp only [slotZeroLoops] at h
    by_cases hp : ident = 0
    · have hn : slotZeroLoops nested = 0 := by simp [hp] at h; omega
      simp [parallelRewriter, hp, parallelRewriter_of_no_loop nested d hn]
    · simp only [parallelRewriter, if_neg hp]
      rw [ih (by omega)]
  | RamIndexChoice rel ident condition queryPattern nested profileText ih =>
    simp only [slotZeroLoops] at h
    by_cases hp : ident = 0
    · have hn : slotZeroLoops nested = 0 := by simp [hp] at h; omega
      simp [parallelRewriter, hp, parallelRewriter_of_no_loop nested d hn]
    · simp only [parallelRewriter, if_neg hp]
      rw [ih (by omega)]
  | RamAggregate nested function rel expression condition ident ih =>
    simp only [slotZeroLoops] at h
    by_cases hp : ident = 0 ∧ rel.isNullary = false
    · have hn : slotZeroLoops nested = 0 := by simp [hp.1] at h; omega
      simp [parallelRewriter, hp, parallelRewriter_of_no_loop nested d hn]
    · simp only [parallelRewriter, if_neg hp]
      rw [ih (by omega)]
  | RamIndexAggregate nested function rel expression condition queryPattern ident ih =>
    simp only [slotZeroLoops] at h
    by_cases hp : ident = 0 ∧ rel.isNullary = false
    · have hn : slotZeroLoops nested = 0 := by simp [hp.1] at h; omega
      simp [parallelRewriter, hp, parallelRewriter_of_no_loop nested d hn]
    · simp only [parallelRewriter, if_neg hp]
      rw [ih (by omega)]
  | RamParallelScan rel ident nested profileText ih =>
    simp only [slotZeroLoops] at h; simp only [parallelRewriter]; rw [ih h]
  | RamParallelChoice rel ident condition nested profileText ih =>
    simp only [slotZeroLoops] at h; simp only [parallelRewriter]; rw [ih h]
  | RamParallelIndexScan rel ident queryPattern nested profileText ih =>
    simp only [slotZeroLoops] at h; simp only [parallelRewriter]; rw [ih h]
  | RamParallelIndexChoice rel ident condition queryPattern nested profileText ih =>
    simp only [slotZeroLoops] at h; simp only [parallelRewriter]; rw [ih h]
  | RamParallelAggregate nested function rel expression condition ident ih =>
    simp only [slotZeroLoops] at h; simp only [parallelRewriter]; rw [ih h]
  | RamParallelIndexAggregate nested function rel expression condition queryPattern ident ih =>
    simp only [slotZeroLoops] at h; simp only [parallelRewriter]; rw [ih h]
  | RamUnpackRecord nested ident expression arity ih =>
    simp only [slotZeroLoops] at h; simp only [parallelRewriter]; rw [ih h]
  | RamFilter condition nested profileText ih =>
    simp only [slotZeroLoops] at h; simp only [parallelRewriter]; rw [ih h]
  | RamBreak condition nested profileText ih =>
    simp only [slotZeroLoops] at h; simp only [parallelRewriter]; rw [ih h]

/-! ## The transform: promotion of the outermost loop -/

/-- Claim C1: when the root operation of a query of the program is a plain scan with tuple id 0 over
a relation of arity > 0 and its nested operation is not a projection, `parallelizeOperations`
returns `changed = true` and the root of that query has become the parallel scan with the same
relation, tuple id, profile text and nested operation; the visit of the query alone gives
that result whatever the flag was. -/
theorem scan_root_promoted (program : RamProgram) (i : Nat) (rel : RamRelation)
    (nested : RamOperation) (profileText : String)
    (hq : program.queries[i]? = some (.RamScan rel 0 nested profileText))
    (harity : rel.getArity > 0) (hproj : isRamProject nested = false) :
    (ParallelTransformer.parallelizeOperations program).2 = true
      ∧ (ParallelTransformer.parallelizeOperations program).1.queries[i]?
          = some (.RamParallelScan rel 0 nested profileText)
      ∧ ∀ changed, visitStatement (.RamQuery (.RamScan rel 0 nested profileText)) changed
          = (.RamQuery (.RamParallelScan rel 0 nested profileText), true) := by
  have hrw : ∀ changed, parallelRewriter (.RamScan rel 0 nested profileText) changed
      = (.RamParallelScan rel 0 nested profileText, true) := by
    intro changed
    simp [parallelRewriter, harity, hproj]
  obtain ⟨h1, h2⟩ := parallelizeOperations_queries program
  refine ⟨?_, ?_, ?_⟩
  · rw [h2, List.any_eq_true]
    exact ⟨_, List.getElem?_mem hq, by rw [hrw]⟩
  · rw [h1, List.getElem?_map, hq, Option.map_some', hrw]
  · intro changed
    rw [show visitStatement (.RamQuery (.RamScan rel 0 nested profileText)) changed
      = rewriteQuery (.RamScan rel 0 nested profileText) changed from rfl]
    unfold rewriteQuery
    rw [hrw]

theorem scan_root_promoted_witness :
    (ParallelTransformer.parallelizeOperations scanProgram).2 = true
      ∧ (ParallelTransformer.parallelizeOperations scanProgram).1.queries[1]?
          = some (.RamParallelScan ⟨"edge", 2⟩ 0
              (.RamFilter .RamTrue
                (.RamProject ⟨"path", 2⟩ [.RamTupleElement 0 0, .RamTupleElement 0 1]) "")
              "scan edge")
      ∧ ∀ changed, visitStatement (.RamQuery (.RamScan ⟨"edge", 2⟩ 0
            (.RamFilter .RamTrue
              (.RamProject ⟨"path", 2⟩ [.RamTupleElement 0 0, .RamTupleElement 0 1]) "")
            "scan edge")) changed
          = (.RamQuery (.RamParallelScan ⟨"edge", 2⟩ 0
              (.RamFilter .RamTrue
                (.RamProject ⟨"path", 2⟩ [.RamTupleElement 0 0, .RamTupleElement 0 1]) "")
              "scan edge"), true) :=
  scan_root_promoted scanProgram 1 ⟨"edge", 2⟩ _ "scan edge" rfl (by decide) rfl

/-- Claim C2: on a program in which every query has at most one loop node with slot 0, a second run
of `parallelizeOperations` on the program produced by a first run returns `changed = false`
and the program as it was given: nothing is replaced. -/
theorem parallelizeOperations_idempotent (program : RamProgram)
    (h : ∀ op ∈ program.queries, slotZeroLoops op ≤ 1) :
    ParallelTransformer.parallelizeOperations
        (ParallelTransformer.parallelizeOperations program).1
      = ((ParallelTransformer.parallelizeOperations program).1, false) := by
  apply parallelizeOperations_fixed
  intro op hop
  rw [(parallelizeOperations_queries program).1, List.mem_map] at hop
  obtain ⟨op0, hop0, rfl⟩ := hop
  exact parallelRewriter_idem op0 false false (h op0 hop0)

theorem parallelizeOperations_idempotent_witness :
    (ParallelTransformer.parallelizeOperations scanProgram).1.queries
        = [.RamProject ⟨"path", 2⟩ [.RamNumber 1, .RamNumber 2],
           .RamParallelScan ⟨"edge", 2⟩ 0
              (.RamFilter .RamTrue
                (.RamProject ⟨"path", 2⟩ [.RamTupleElement 0 0, .RamTupleElement 0 1]) "")
              "scan edge"]
      ∧ ParallelTransformer.parallelizeOperations
          (ParallelTransformer.parallelizeOperations scanProgram).1
        = ((ParallelTransformer.parallelizeOperations scanProgram).1, false) :=
  ⟨rfl, parallelizeOperations_idempotent scanProgram (by decide)⟩

/-- Claim C3: a plain scan whose nested operation is directly a projection is not promoted, whatever
its relation, arity and tuple id: the visit of such a query hands back the query and the flag
as they were, and on a program whose queries all have this shape `parallelizeOperations`
returns `changed = false` and the program unchanged. -/
theorem scan_over_project_kept (program : RamProgram)
    (h : ∀ op ∈ program.queries, ∃ rel ident prel expressions profileText,
      op = .RamScan rel ident (.RamProject prel expressions) profileText) :
    ParallelTransformer.parallelizeOperations program = (program, false)
      ∧ ∀ rel ident prel expressions profileText changed,
          visitStatement
              (.RamQuery (.RamScan rel ident (.RamProject prel expressions) profileText)) changed
            = (.RamQuery (.RamScan rel ident (.RamProject prel expressions) profileText),
                changed) := by
  have hrw : ∀ rel ident prel expressions profileText changed,
      parallelRewriter (.RamScan rel ident (.RamProject prel expressions) profileText) changed
        = (.RamScan rel ident (.RamProject prel expressions) profileText, changed) := by
    intro rel ident prel expressions profileText changed
    simp [parallelRewriter, isRamProject]
  refine ⟨?_, ?_⟩
  · apply parallelizeOperations_fixed
    intro op hop
    obtain ⟨rel, ident, prel, expressions, profileText, rfl⟩ := h op hop
    exact hrw _ _ _ _ _ _
  · intro rel ident prel expressions profileText changed
    rw [show visitStatement
        (.RamQuery (.RamScan rel ident (.RamProject prel expressions) profileText)) changed
      = rewriteQuery (.RamScan rel ident (.RamProject prel expressions) profileText) changed
      from rfl]
    unfold rewriteQuery
    rw [hrw]

theorem scan_over_project_kept_witness :
    ParallelTransformer.parallelizeOperations copyProgram = (copyProgram, false) :=
  (scan_over_project_kept copyProgram (by
    intro op hop
    simp only [RamProgram.queries, copyProgram, statementQueries, subroutineQueries,
      List.append_nil, List.cons_append, List.nil_append, List.mem_cons, List.mem_singleton,
      List.not_mem_nil, or_false] at hop
    rcases hop with rfl | rfl
    · exact ⟨_, _, _, _, _, rfl⟩
    · exact ⟨_, _, _, _, _, rfl⟩)).1

/-- Claim C4: an index-scan or index-choice with tuple id 0 handed to the rewriter is replaced by its
parallel counterpart with the same relation, tuple id, nested operation, profile text and (for
index-choice) condition, and with the same range pattern: the copied pattern has the same
number of columns and the same entry in every column; the pattern `[unbound, (5, 10)]` is
carried as it is. -/
theorem index_pattern_preserved (rel : RamRelation) (condition : RamCondition)
    (queryPattern : RamPattern) (nested : RamOperation) (profileText : String)
    (changed : Bool) :
    parallelRewriter (.RamIndexScan rel 0 queryPattern nested profileText) changed
        = (.RamParallelIndexScan rel 0 queryPattern nested profileText, true)
      ∧ parallelRewriter (.RamIndexChoice rel 0 condition queryPattern nested profileText)
          changed
        = (.RamParallelIndexChoice rel 0 condition queryPattern nested profileText, true)
      ∧ (clone queryPattern).length = queryPattern.length
      ∧ (∀ column : Nat, (clone queryPattern)[column]? = queryPattern[column]?)
      ∧ parallelRewriter
          (.RamIndexScan rel 0 [.unbound, .bound (.RamNumber 5) (.RamNumber 10)] nested
            profileText) changed
        = (.RamParallelIndexScan rel 0 [.unbound, .bound (.RamNumber 5) (.RamNumber 10)] nested
            profileText, true) := by
  refine ⟨?_, ?_, ?_, ?_, ?_⟩
  · simp [parallelRewriter, clone_eq]
  · simp [parallelRewriter, clone_eq]
  · rw [clone_eq]
  · intro column; rw [clone_eq]
  · simp [parallelRewriter, clone]

/-- Claim C5: an aggregate or index-aggregate with tuple id 0 handed to the rewriter is replaced by
its parallel counterpart exactly when its relation is not nullary; the parallel node has the
same function, expression, condition, relation, tuple id and nested operation (and range
pattern); over a nullary relation the node keeps its sequential kind and the rewriter goes on
into its nested operation. -/
theorem aggregate_promoted_iff_not_nullary (nested : RamOperation) (function : AggregateOp)
    (rel : RamRelation) (expression : RamExpression) (condition : RamCondition)
    (queryPattern : RamPattern) (changed : Bool) :
    parallelRewriter (.RamAggregate nested function rel expression condition 0) changed
        = (if rel.isNullary = true then
            (.RamAggregate (parallelRewriter nested changed).1 function rel expression
              condition 0, (parallelRewriter nested changed).2)
          else (.RamParallelAggregate nested function rel expression condition 0, true))
      ∧ parallelRewriter
          (.RamIndexAggregate nested function rel expression condition queryPattern 0) changed
        = (if rel.isNullary = true then
            (.RamIndexAggregate (parallelRewriter nested changed).1 function rel expression
              condition queryPattern 0, (parallelRewriter nested changed).2)
          else (.RamParallelIndexAggregate nested function rel expression condition
            queryPattern 0, true)) := by
  cases hn : rel.isNullary <;> simp [parallelRewriter, hn, clone_eq]

/-- Claim C6: a choice with tuple id 0 handed to the rewriter is replaced by the parallel choice with
the same relation, tuple id, condition, nested operation and profile text, and the flag is
raised; neither the arity of the relation nor the nested operation matters: a choice over a
nullary relation directly above a projection is promoted too. -/
theorem choice_always_promoted (rel : RamRelation) (condition : RamCondition)
    (nested : RamOperation) (profileText : String) (changed : Bool) :
    parallelRewriter (.RamChoice rel 0 condition nested profileText) changed
        = (.RamParallelChoice rel 0 condition nested profileText, true)
      ∧ ∀ name prel expressions,
          parallelRewriter
              (.RamChoice ⟨name, 0⟩ 0 condition (.RamProject prel expressions) profileText)
              changed
            = (.RamParallelChoice ⟨name, 0⟩ 0 condition (.RamProject prel expressions)
                profileText, true) := by
  refine ⟨?_, ?_⟩
  · simp [parallelRewriter]
  · intro name prel expressions
    simp [parallelRewriter]

/-! ## The relation store: insertion, swap and purge -/

theorem LVMIndex.mem_insert (index : LVMIndex) (tuple other : TupleRef) :
    other ∈ (index.insert tuple).2.tuples ↔ other = tuple ∨ other ∈ index.tuples := by
  unfold LVMIndex.insert
  by_cases h : index.contains tuple = true
  · rw [if_pos h]
    have hm : tuple ∈ index.tuples := by simpa [LVMIndex.contains] using h
    constructor
    · intro ho; exact Or.inr ho
    · rintro (rfl | ho)
      · exact hm
      · exact ho
  · rw [if_neg h]
    exact List.mem_orderedInsert _

theorem LVMIndex.contains_insert (index : LVMIndex) (tuple : TupleRef) :
    (index.insert tuple).2.contains tuple = true := by
  simp [LVMIndex.contains, LVMIndex.mem_insert]

theorem LVMIndex.size_insert (index : LVMIndex) (tuple : TupleRef)
    (h : index.contains tuple = false) :
    (index.insert tuple).2.size = index.size + 1 := by
  unfold LVMIndex.insert LVMIndex.size
  rw [if_neg (by simp [h])]
  exact List.orderedInsert_length _ _ _

theorem LVMRelation.mainIndex_of_lt (r : LVMRelation) (h : r.main < r.indexes.length) :
    r.mainIndex = some (r.indexes.get ⟨r.main, h⟩) := by
  unfold LVMRelation.mainIndex
  rw [List.getElem?_eq_getElem h]
  rfl

theorem LVMRelation.mainIndex_map (r : LVMRelation) (f : LVMIndex → LVMIndex) :
    ({ r with indexes := r.indexes.map f } : LVMRelation).mainIndex = r.mainIndex.map f := by
  simp [LVMRelation.mainIndex, List.getElem?_map]

/-- The effect of the base insert on a relation with a main index, for a tuple of the right
length. -/
theorem LVMRelation.insert_eq (r : LVMRelation) (tuple : TupleRef) (mainIndex : LVMIndex)
    (hmain : r.mainIndex = some mainIndex) (harity : tuple.length = r.arity) :
    r.insert tuple
      = some (!mainIndex.contains tuple,
          if mainIndex.contains tuple then r
          else { r with indexes := r.indexes.map fun index => (index.insert tuple).2 }) := by
  unfold LVMRelation.insert
  rw [if_neg (by simp [harity]), hmain]
  cases h : mainIndex.contains tuple <;> simp [h]

/-- Claim C7: on a relation with a main index and for a tuple of the relation's arity, `insert`
returns true exactly when the tuple was not in the relation before; afterwards `exists` is
true; the size has grown by exactly one when `insert` returned true and is unchanged when it
returned false; inserting the tuple again returns false and changes nothing.  On a fresh
relation, `insert` returns true, the size becomes one and a second insert returns false. -/
theorem insert_membership_size (r : LVMRelation) (tuple : TupleRef)
    (hmain : r.main < r.indexes.length) (harity : tuple.length = r.arity) :
    (∃ added next present n,
        r.insert tuple = some (added, next)
        ∧ r.exists tuple = some present ∧ (added = true ↔ present = false)
        ∧ next.exists tuple = some true
        ∧ r.size = some n ∧ next.size = some (if added then n + 1 else n)
        ∧ next.insert tuple = some (false, next))
      ∧ ∀ (numberOfHeights : Nat) (name : String) (attributeTypes : List String)
          (orderSet : MinIndexSelection), orderSet.main < orderSet.orders.length →
          ∃ next,
            (LVMRelation.create tuple.length numberOfHeights name attributeTypes orderSet
                createBTreeIndex).size = some 0
            ∧ (LVMRelation.create tuple.length numberOfHeights name attributeTypes orderSet
                createBTreeIndex).insert tuple = some (true, next)
            ∧ next.exists tuple = some true
            ∧ next.size = some 1
            ∧ next.insert tuple = some (false, next) := by
  have key : ∀ (q : LVMRelation) (m : LVMIndex), q.mainIndex = some m →
      tuple.length = q.arity →
      ∃ next, q.insert tuple = some (!m.contains tuple, next)
        ∧ next.exists tuple = some true
        ∧ next.size = some (if (!m.contains tuple) = true then m.size + 1 else m.size)
        ∧ next.insert tuple = some (false, next) := by
    intro q m hm ha
    have hins := LVMRelation.insert_eq q tuple m hm ha
    cases hc : m.contains tuple
    · rw [hc] at hins
      simp only [Bool.not_false, Bool.false_eq_true, if_false] at hins
      have hm2 := LVMRelation.mainIndex_map q (fun index => (index.insert tuple).2)
      rw [hm, Option.map_some'] at hm2
      refine ⟨_, hins, ?_, ?_, ?_⟩
      · simp only [LVMRelation.exists]
        rw [hm2, Option.map_some', LVMIndex.contains_insert]
      · simp only [LVMRelation.size]
        rw [hm2, Option.map_some', LVMIndex.size_insert m tuple hc]
        simp
      · rw [LVMRelation.insert_eq _ tuple _ hm2 ha, LVMIndex.contains_insert]
        simp
    · rw [hc] at hins
      simp only [Bool.not_true, if_true] at hins
      refine ⟨_, hins, ?_, ?_, ?_⟩
      · simp [LVMRelation.exists, hm, hc]
      · simp [LVMRelation.size, hm]
      · rw [LVMRelation.insert_eq q tuple m hm ha, hc]
        simp
  refine ⟨?_, ?_⟩
  · have hm := LVMRelation.mainIndex_of_lt r hmain
    obtain ⟨next, h1, h2, h3, h4⟩ := key r _ hm harity
    refine ⟨_, next, (r.indexes.get ⟨r.main, hmain⟩).contains tuple,
      (r.indexes.get ⟨r.main, hmain⟩).size, h1, ?_, ?_, h2, ?_, h3, h4⟩
    · simp [LVMRelation.exists, hm]
    · simp
    · simp [LVMRelation.size, hm]
  · intro numberOfHeights name attributeTypes orderSet horders
    have hlen : orderSet.main < (orderSet.orders.map createBTreeIndex).length := by
      simpa using horders
    have hm : (LVMRelation.create tuple.length numberOfHeights name attributeTypes orderSet
        createBTreeIndex).mainIndex
          = some (createBTreeIndex (orderSet.orders.get ⟨orderSet.main, horders⟩)) := by
      simp [LVMRelation.mainIndex, LVMRelation.create, List.getElem?_map,
        List.getElem?_eq_getElem horders]
    obtain ⟨next, h1, h2, h3, h4⟩ := key _ _ hm rfl
    have hc : (createBTreeIndex (orderSet.orders.get ⟨orderSet.main, horders⟩)).contains tuple
        = false := by
      simp [createBTreeIndex, LVMIndex.contains]
    rw [hc] at h1 h3
    refine ⟨next, ?_, h1, h2, ?_, h4⟩
    · simp [LVMRelation.size, hm, createBTreeIndex, LVMIndex.size]
    · simpa [createBTreeIndex, LVMIndex.size] using h3

theorem insert_membership_size_witness :
    pairRelation.insert [3, 1]
        = some (true, { pairRelation with
            indexes := [{ order := [0, 1], tuples := [[1, 2], [3, 1]] },
                        { order := [1, 0], tuples := [[3, 1], [1, 2]] }] })
      ∧ pairRelation.insert [1, 2] = some (false, pairRelation)
      ∧ (∃ added next present n,
          pairRelation.insert [3, 1] = some (added, next)
          ∧ pairRelation.exists [3, 1] = some present ∧ (added = true ↔ present = false)
          ∧ next.exists [3, 1] = some true
          ∧ pairRelation.size = some n ∧ next.size = some (if added then n + 1 else n)
          ∧ next.insert [3, 1] = some (false, next)) :=
  ⟨by decide, by decide,
    (insert_membership_size pairRelation [3, 1] (by decide) (by decide)).1⟩

/-- Claim C9: `swap` exchanges the tuple contents, the installed indexes and the metadata of the two
relations, and swapping twice gives back both relations as they were. -/
theorem swap_involution (a b : LVMRelation) :
    (a.swap b).1 = b ∧ (a.swap b).2 = a
      ∧ (a.swap b).1.indexes = b.indexes ∧ (a.swap b).2.indexes = a.indexes
      ∧ (a.swap b).1.scan = b.scan ∧ (a.swap b).2.scan = a.scan
      ∧ (a.swap b).1.getName = b.getName ∧ (a.swap b).2.getName = a.getName
      ∧ (a.swap b).1.getArity = b.getArity ∧ (a.swap b).2.getArity = a.getArity
      ∧ ((a.swap b).1.swap (a.swap b).2) = (a, b) := by
  cases a; cases b
  simp [LVMRelation.swap]

/-- Claim C10: after `purge` of a relation with a main index, the size is 0, the relation is empty
and `exists` is false for every tuple, so for every tuple that was present; the name, the
arity, the number of heights, the attribute types and the level are unchanged, and so are the
number of installed indexes, their orders and the main index position. -/
theorem purge_empties (r : LVMRelation) (hmain : r.main < r.indexes.length) :
    r.purge.size = some 0
      ∧ r.purge.empty = some true
      ∧ (∀ tuple, r.purge.exists tuple = some false)
      ∧ r.purge.scan = some []
      ∧ r.purge.getName = r.getName
      ∧ r.purge.getArity = r.getArity
      ∧ r.purge.getNumberOfHeights = r.getNumberOfHeights
      ∧ r.purge.getAttributeTypeQualifiers = r.getAttributeTypeQualifiers
      ∧ r.purge.getLevel = r.getLevel
      ∧ r.purge.indexes.length = r.indexes.length
      ∧ r.purge.indexes.map LVMIndex.order = r.indexes.map LVMIndex.order
      ∧ r.purge.main = r.main
      ∧ ∀ index ∈ r.purge.indexes, index.tuples = [] := by
  have hm : r.purge.mainIndex = some (r.indexes.get ⟨r.main, hmain⟩).clear := by
    unfold LVMRelation.purge
    rw [LVMRelation.mainIndex_map, LVMRelation.mainIndex_of_lt r hmain, Option.map_some']
  refine ⟨?_, ?_, ?_, ?_, rfl, rfl, rfl, rfl, rfl, ?_, ?_, rfl, ?_⟩
  · simp [LVMRelation.size, hm, LVMIndex.clear, LVMIndex.size]
  · simp [LVMRelation.empty, hm, LVMIndex.clear, LVMIndex.empty]
  · intro tuple
    simp [LVMRelation.exists, hm, LVMIndex.clear, LVMIndex.contains]
  · simp [LVMRelation.scan, hm, LVMIndex.clear, LVMIndex.scan]
  · simp [LVMRelation.purge]
  · simp [LVMRelation.purge, LVMIndex.clear]
  · intro index hindex
    simp only [LVMRelation.purge, List.mem_map] at hindex
    obtain ⟨index0, _, rfl⟩ := hindex
    rfl

theorem purge_empties_witness :
    pairRelation.exists [1, 2] = some true
      ∧ pairRelation.purge
        = { pairRelation with
            indexes := [{ order := [0, 1], tuples := [] }, { order := [1, 0], tuples := [] }] }
      ∧ pairRelation.purge.size = some 0
      ∧ pairRelation.purge.exists [1, 2] = some false :=
  ⟨by decide, by decide, (purge_empties pairRelation (by decide)).1,
    (purge_empties pairRelation (by decide)).2.2.1 [1, 2]⟩

/-! ## The equivalence relation against the reference union-find -/

theorem UnionFind.sameClass_iff (uf : UnionFind) (a b : RamDomain) :
    uf.sameClass a b = true ↔ ∃ r, uf.rep a = some r ∧ uf.rep b = some r := by
  unfold UnionFind.sameClass UnionFind.find
  cases ha : uf.rep a <;> cases hb : uf.rep b <;> simp
  constructor
  · rintro rfl; rfl
  · intro h; exact h.symm

theorem UnionFind.valid_empty : UnionFind.empty.Valid := by
  intro value r h
  simp [UnionFind.empty] at h

theorem UnionFind.valid_makeSet (uf : UnionFind) (x : RamDomain) (hv : uf.Valid) :
    (uf.makeSet x).Valid := by
  unfold UnionFind.makeSet UnionFind.find
  cases hx : uf.rep x with
  | some r => exact hv
  | none =>
    intro z r hz
    simp only at hz ⊢
    by_cases hzx : z = x
    · rw [if_pos hzx] at hz
      cases hz
      simp
    · rw [if_neg hzx] at hz
      have hr := hv z r hz
      have hrx : r ≠ x := by
        rintro rfl
        rw [hx] at hr
        cases hr
      rw [if_neg hrx]
      exact hr

theorem UnionFind.sameClass_makeSet (uf : UnionFind) (x u v : RamDomain) (hv : uf.Valid) :
    (uf.makeSet x).sameClass u v = true
      ↔ uf.sameClass u v = true ∨ (u = x ∧ v = x) := by
  rw [UnionFind.sameClass_iff, UnionFind.sameClass_iff]
  unfold UnionFind.makeSet UnionFind.find
  cases hx : uf.rep x with
  | some r =>
    constructor
    · intro h; exact Or.inl h
    · rintro (h | ⟨rfl, rfl⟩)
      · exact h
      · exact ⟨r, hx, hx⟩
  | none =>
    simp only
    constructor
    · rintro ⟨r, hu, hw⟩
      by_cases hux : u = x
      · by_cases hvx : v = x
        · exact Or.inr ⟨hux, hvx⟩
        · rw [if_pos hux] at hu
          rw [if_neg hvx] at hw
          cases hu
          have := hv v _ hw
          rw [hx] at this
          cases this
      · by_cases hvx : v = x
        · rw [if_neg hux] at hu
          rw [if_pos hvx] at hw
          cases hw
          have := hv u _ hu
          rw [hx] at this
          cases this
        · rw [if_neg hux] at hu
          rw [if_neg hvx] at hw
          exact Or.inl ⟨r, hu, hw⟩
    · rintro (⟨r, hu, hw⟩ | ⟨rfl, rfl⟩)
      · have hux : u ≠ x := by
          rintro rfl
          rw [hx] at hu
          cases hu
        have hvx : v ≠ x := by
          rintro rfl
          rw [hx] at hw
          cases hw
        exact ⟨r, by rw [if_neg hux]; exact hu, by rw [if_neg hvx]; exact hw⟩
      · exact ⟨_, if_pos rfl, if_pos rfl⟩

theorem UnionFind.rep_makeSet_self (uf : UnionFind) (x : RamDomain) :
    ∃ r, (uf.makeSet x).rep x = some r := by
  unfold UnionFind.makeSet UnionFind.find
  cases hx : uf.rep x with
  | some r => exact ⟨r, hx⟩
  | none => exact ⟨x, by simp⟩

theorem UnionFind.rep_makeSet_of_some (uf : UnionFind) (x z r : RamDomain)
    (h : uf.rep z = some r) : ∃ r2, (uf.makeSet x).rep z = some r2 := by
  unfold UnionFind.makeSet UnionFind.find
  cases hx : uf.rep x with
  | some r1 => exact ⟨r, h⟩
  | none =>
    simp only
    by_cases hzx : z = x
    · exact ⟨x, by rw [if_pos hzx]⟩
    · exact ⟨r, by rw [if_neg hzx]; exact h⟩

/-- The merge step of the quick-find on a union-find in which both values are present. -/
theorem UnionFind.merge_spec (rep : RamDomain → Option RamDomain) (x y rx ry : RamDomain)
    (hv : ∀ z r, rep z = some r → rep r = some r)
    (hx : rep x = some rx) (hy : rep y = some ry) :
    (∀ z r, (if rep z = rep x then rep y else rep z) = some r →
        (if rep r = rep x then rep y else rep r) = some r)
      ∧ ∀ u v, (∃ r, (if rep u = rep x then rep y else rep u) = some r
            ∧ (if rep v = rep x then rep y else rep v) = some r)
          ↔ ((∃ r, rep u = some r ∧ rep v = some r)
              ∨ (((∃ r, rep u = some r ∧ rep x = some r) ∨ (∃ r, rep u = some r ∧ rep y = some r))
                ∧ ((∃ r, rep v = some r ∧ rep x = some r)
                  ∨ (∃ r, rep v = some r ∧ rep y = some r)))) := by
  refine ⟨?_, ?_⟩
  · intro z r hz
    by_cases hzx : rep z = rep x
    · rw [if_pos hzx, hy] at hz
      cases hz
      have hr := hv y _ hy
      by_cases hrx : rep ry = rep x
      · rw [if_pos hrx]; exact hy
      · rw [if_neg hrx]; exact hr
    · rw [if_neg hzx] at hz
      have hr := hv z r hz
      have hrx : ¬ rep r = rep x := by
        intro h
        apply hzx
        rw [hz, ← h, hr]
      rw [if_neg hrx]
      exact hr
  · intro u v
    by_cases hux : rep u = rep x <;> by_cases hvx : rep v = rep x
    · simp only [if_pos hux, if_pos hvx]
      constructor
      · intro _
        exact Or.inr ⟨Or.inl ⟨rx, by rw [hux, hx], hx⟩, Or.inl ⟨rx, by rw [hvx, hx], hx⟩⟩
      · intro _
        exact ⟨ry, hy, hy⟩
    · simp only [if_pos hux, if_neg hvx]
      constructor
      · rintro ⟨r, h1, h2⟩
        rw [hy] at h1
        cases h1
        exact Or.inr ⟨Or.inl ⟨rx, by rw [hux, hx], hx⟩, Or.inr ⟨ry, h2, hy⟩⟩
      · rintro (⟨r, h1, h2⟩ | ⟨_, (⟨r, h1, h2⟩ | ⟨r, h1, h2⟩)⟩)
        · exact absurd (by rw [h2, ← h1, hux]) hvx
        · exact absurd (by rw [h1, h2]) hvx
        · rw [hy] at h2
          cases h2
          exact ⟨ry, hy, h1⟩
    · simp only [if_neg hux, if_pos hvx]
      constructor
      · rintro ⟨r, h1, h2⟩
        rw [hy] at h2
        cases h2
        exact Or.inr ⟨Or.inr ⟨ry, h1, hy⟩, Or.inl ⟨rx, by rw [hvx, hx], hx⟩⟩
      · rintro (⟨r, h1, h2⟩ | ⟨(⟨r, h1, h2⟩ | ⟨r, h1, h2⟩), _⟩)
        · exact absurd (by rw [h1, ← h2, hvx]) hux
        · exact absurd (by rw [h1, h2]) hux
        · rw [hy] at h2
          cases h2
          exact ⟨ry, h1, hy⟩
    · simp only [if_neg hux, if_neg hvx]
      constructor
      · intro h; exact Or.inl h
      · rintro (h | ⟨(⟨r, h1, h2⟩ | ⟨r, h1, h2⟩), (⟨r', h3, h4⟩ | ⟨r', h3, h4⟩)⟩)
        · exact h
        · exact absurd (by rw [h1, h2]) hux
        · exact absurd (by rw [h1, h2]) hux
        · exact absurd (by rw [h3, h4]) hvx
        · rw [hy] at h2 h4
          cases h2
          cases h4
          exact ⟨ry, h1, h3⟩

/-- The classes after a union: two values are in the same class when they were already, or
when each of them is one of the two merged values or was in the class of one of them. -/
theorem UnionFind.union_spec (uf : UnionFind) (x y : RamDomain) (hv : uf.Valid) :
    (uf.union x y).Valid
      ∧ ∀ u v, (uf.union x y).sameClass u v = true
          ↔ (uf.sameClass u v = true
            ∨ ((u = x ∨ u = y ∨ uf.sameClass u x = true ∨ uf.sameClass u y = true)
              ∧ (v = x ∨ v = y ∨ uf.sameClass v x = true ∨ uf.sameClass v y = true))) := by
  have hv1 := UnionFind.valid_makeSet uf x hv
  have hv2 := UnionFind.valid_makeSet (uf.makeSet x) y hv1
  obtain ⟨rx1, hx1⟩ := UnionFind.rep_makeSet_self uf x
  obtain ⟨rx, hx⟩ := UnionFind.rep_makeSet_of_some (uf.makeSet x) y x rx1 hx1
  obtain ⟨ry, hy⟩ := UnionFind.rep_makeSet_self (uf.makeSet x) y
  obtain ⟨h1, h2⟩ := UnionFind.merge_spec ((uf.makeSet x).makeSet y).rep x y rx ry hv2 hx hy
  refine ⟨h1, ?_⟩
  intro u v
  have hS2 : ∀ a b, ((uf.makeSet x).makeSet y).sameClass a b = true
      ↔ (uf.sameClass a b = true ∨ (a = x ∧ b = x) ∨ (a = y ∧ b = y)) := by
    intro a b
    rw [UnionFind.sameClass_makeSet _ _ _ _ hv1, UnionFind.sameClass_makeSet _ _ _ _ hv, or_assoc]
  have hM : ∀ a, (((uf.makeSet x).makeSet y).sameClass a x = true
        ∨ ((uf.makeSet x).makeSet y).sameClass a y = true)
      ↔ (a = x ∨ a = y ∨ uf.sameClass a x = true ∨ uf.sameClass a y = true) := by
    intro a
    rw [hS2, hS2]
    constructor
    · rintro ((h | ⟨h, _⟩ | ⟨h, _⟩) | (h | ⟨h, _⟩ | ⟨h, _⟩))
      · exact Or.inr (Or.inr (Or.inl h))
      · exact Or.inl h
      · exact Or.inr (Or.inl h)
      · exact Or.inr (Or.inr (Or.inr h))
      · exact Or.inl h
      · exact Or.inr (Or.inl h)
    · rintro (h | h | h | h)
      · exact Or.inl (Or.inr (Or.inl ⟨h, rfl⟩))
      · exact Or.inr (Or.inr (Or.inr ⟨h, rfl⟩))
      · exact Or.inl (Or.inl h)
      · exact Or.inr (Or.inl h)
  rw [UnionFind.sameClass_iff]
  have h3 := h2 u v
  simp only [← UnionFind.sameClass_iff] at h3
  rw [hM, hM, hS2] at h3
  refine Iff.trans h3 ?_
  constructor
  · rintro ((h | ⟨h, h'⟩ | ⟨h, h'⟩) | h)
    · exact Or.inl h
    · exact Or.inr ⟨Or.inl h, Or.inl h'⟩
    · exact Or.inr ⟨Or.inr (Or.inl h), Or.inr (Or.inl h')⟩
    · exact Or.inr h
  · rintro (h | h)
    · exact Or.inl (Or.inl h)
    · exact Or.inr h

theorem UnionFind.sameClass_symm (uf : UnionFind) (u v : RamDomain)
    (h : uf.sameClass u v = true) : uf.sameClass v u = true := by
  rw [UnionFind.sameClass_iff] at h ⊢
  obtain ⟨r, h1, h2⟩ := h
  exact ⟨r, h2, h1⟩

theorem UnionFind.sameClass_trans (uf : UnionFind) (u v w : RamDomain)
    (h : uf.sameClass u v = true) (h' : uf.sameClass v w = true) :
    uf.sameClass u w = true := by
  rw [UnionFind.sameClass_iff] at h h' ⊢
  obtain ⟨r, h1, h2⟩ := h
  obtain ⟨r', h3, h4⟩ := h'
  rw [h2] at h3
  cases h3
  exact ⟨r, h1, h4⟩

theorem UnionFind.sameClass_left (uf : UnionFind) (u v : RamDomain)
    (h : uf.sameClass u v = true) : uf.sameClass u u = true :=
  UnionFind.sameClass_trans uf u v u h (UnionFind.sameClass_symm uf u v h)

theorem mem_joinStep (stored : List TupleRef) (cls : List RamDomain) (z : RamDomain) :
    z ∈ joinStep stored cls
      ↔ z ∈ cls ∨ ∃ t ∈ stored, (∃ w ∈ t, w ∈ cls) ∧ z ∈ t := by
  simp only [joinStep, sharesComponent, List.mem_append, List.mem_flatten, List.mem_filter,
    List.any_eq_true, decide_eq_true_eq]
  constructor
  · rintro (h | ⟨t, ⟨ht, hw⟩, hz⟩)
    · exact Or.inl h
    · exact Or.inr ⟨t, ht, hw, hz⟩
  · rintro (h | ⟨t, ht, hw, hz⟩)
    · exact Or.inl h
    · exact Or.inr ⟨t, ⟨ht, hw⟩, hz⟩

/-- One round of the join on a relation that holds the pairs of the classes of a union-find:
the values in the class of a collected value are added. -/
theorem mem_joinStep_of_classes (uf : UnionFind) (stored : List TupleRef)
    (hstored : ∀ t, t ∈ stored ↔ ∃ u v, t = [u, v] ∧ uf.sameClass u v = true)
    (cls : List RamDomain) (z : RamDomain) :
    z ∈ joinStep stored cls ↔ z ∈ cls ∨ ∃ w ∈ cls, uf.sameClass z w = true := by
  rw [mem_joinStep]
  constructor
  · rintro (h | ⟨t, ht, ⟨w, hwt, hw⟩, hz⟩)
    · exact Or.inl h
    · obtain ⟨u, v, rfl, huv⟩ := (hstored t).1 ht
      simp only [List.mem_cons, List.mem_singleton, List.not_mem_nil, or_false] at hwt hz
      rcases hz with rfl | rfl <;> rcases hwt with rfl | rfl
      · exact Or.inl hw
      · exact Or.inr ⟨_, hw, huv⟩
      · exact Or.inr ⟨_, hw, UnionFind.sameClass_symm uf _ _ huv⟩
      · exact Or.inl hw
  · rintro (h | ⟨w, hw, hzw⟩)
    · exact Or.inl h
    · exact Or.inr ⟨[z, w], (hstored _).2 ⟨z, w, rfl, hzw⟩, ⟨w, by simp, hw⟩, by simp⟩

theorem joinClosure_of_stable (fuel : Nat) (stored : List TupleRef) (cls : List RamDomain)
    (h : ∀ z ∈ joinStep stored cls, z ∈ cls) : joinClosure fuel stored cls = cls := by
  cases fuel with
  | zero => rfl
  | succ n =>
    unfold joinClosure
    rw [if_pos]
    simpa [List.all_eq_true] using h

/-- The fixpoint join on a relation that holds the pairs of the classes of a union-find
collects the values it started from and the values of their classes. -/
theorem mem_joinClosure_of_classes (uf : UnionFind) (stored : List TupleRef)
    (hstored : ∀ t, t ∈ stored ↔ ∃ u v, t = [u, v] ∧ uf.sameClass u v = true)
    (fuel : Nat) (cls : List RamDomain) (z : RamDomain) :
    z ∈ joinClosure (fuel + 1) stored cls
      ↔ z ∈ cls ∨ ∃ w ∈ cls, uf.sameClass z w = true := by
  unfold joinClosure
  by_cases hst : (joinStep stored cls).all (fun value => decide (value ∈ cls)) = true
  · rw [if_pos hst]
    have hst' : ∀ v ∈ joinStep stored cls, v ∈ cls := by
      simpa [List.all_eq_true] using hst
    constructor
    · intro h; exact Or.inl h
    · rintro (h | h)
      · exact h
      · exact hst' z ((mem_joinStep_of_classes uf stored hstored cls z).2 (Or.inr h))
  · rw [if_neg hst, joinClosure_of_stable]
    · exact mem_joinStep_of_classes uf stored hstored cls z
    · intro v hv
      rw [mem_joinStep_of_classes uf stored hstored] at hv
      rcases hv with h | ⟨w, hw, hvw⟩
      · exact h
      · rw [mem_joinStep_of_classes uf stored hstored] at hw ⊢
        rcases hw with h | ⟨w', hw', hww'⟩
        · exact Or.inr ⟨w, h, hvw⟩
        · exact Or.inr ⟨w', hw', UnionFind.sameClass_trans uf _ _ _ hvw hww'⟩

/-- One base insert, seen from the main index. -/
theorem LVMRelation.insert_step (r : LVMRelation) (tuple : TupleRef) (m : LVMIndex)
    (hm : r.mainIndex = some m) (harity : tuple.length = r.arity) :
    ∃ added next m', r.insert tuple = some (added, next) ∧ next.mainIndex = some m'
      ∧ next.arity = r.arity
      ∧ ∀ other, other ∈ m'.tuples ↔ other = tuple ∨ other ∈ m.tuples := by
  rw [LVMRelation.insert_eq r tuple m hm harity]
  cases hc : m.contains tuple
  · refine ⟨_, _, (m.insert tuple).2, rfl, ?_, rfl, ?_⟩
    · simp only [Bool.false_eq_true, if_false]
      rw [LVMRelation.mainIndex_map, hm, Option.map_some']
    · intro other
      exact LVMIndex.mem_insert m tuple other
  · refine ⟨_, _, m, rfl, ?_, rfl, ?_⟩
    · simpa using hm
    · intro other
      have hmem : tuple ∈ m.tuples := by simpa [LVMIndex.contains] using hc
      constructor
      · intro h; exact Or.inr h
      · rintro (rfl | h)
        · exact hmem
        · exact h

/-- A run of base inserts, seen from the main index. -/
theorem LVMRelation.insertTuples_spec (tuples : List TupleRef) (r : LVMRelation) (m : LVMIndex)
    (hm : r.mainIndex = some m) (harity : ∀ t ∈ tuples, t.length = r.arity) :
    ∃ next m', r.insertTuples tuples = some next ∧ next.mainIndex = some m'
      ∧ next.arity = r.arity
      ∧ ∀ other, other ∈ m'.tuples ↔ other ∈ tuples ∨ other ∈ m.tuples := by
  induction tuples generalizing r m with
  | nil => exact ⟨r, m, rfl, hm, rfl, by simp⟩
  | cons t rest ih =>
    obtain ⟨added, r1, m1, h1, hm1, ha1, hmem1⟩ :=
      LVMRelation.insert_step r t m hm (harity t (by simp))
    obtain ⟨r2, m2, h2, hm2, ha2, hmem2⟩ := ih r1 m1 hm1
      (fun u hu => by rw [ha1]; exact harity u (by simp [hu]))
    refine ⟨r2, m2, ?_, hm2, by rw [ha2, ha1], ?_⟩
    · simp only [LVMRelation.insertTuples, h1]
      exact h2
    · intro other
      rw [hmem2, hmem1]
      simp only [List.mem_cons]
      tauto

/-- One insert into an equivalence relation that holds the pairs of the classes of a
union-find: afterwards it holds the pairs of the classes after the union. -/
theorem LVMEqRelation.insert_pair_step (r : LVMRelation) (uf : UnionFind) (x y : RamDomain)
    (m : LVMIndex) (hm : r.mainIndex = some m) (harity : r.arity = 2) (hv : uf.Valid)
    (hinv : ∀ t, t ∈ m.tuples ↔ ∃ u v, t = [u, v] ∧ uf.sameClass u v = true) :
    ∃ added next m', LVMEqRelation.insert r [x, y] = some (added, next)
      ∧ next.mainIndex = some m' ∧ next.arity = 2
      ∧ ∀ t, t ∈ m'.tuples ↔ ∃ u v, t = [u, v] ∧ (uf.union x y).sameClass u v = true := by
  have hcls : ∀ z, z ∈ joinClosure (m.tuples.length + 1) m.tuples [x, y]
      ↔ (z = x ∨ z = y ∨ uf.sameClass z x = true ∨ uf.sameClass z y = true) := by
    intro z
    rw [mem_joinClosure_of_classes uf m.tuples hinv]
    simp only [List.mem_cons, List.mem_singleton, List.not_mem_nil, or_false, exists_eq_or_imp,
      exists_eq_left]
    tauto
  have hnew : ∀ t, t ∈ ((joinClosure (m.tuples.length + 1) m.tuples [x, y]).flatMap fun u =>
        (joinClosure (m.tuples.length + 1) m.tuples [x, y]).map fun v => [u, v]).filter
          (fun implied => !decide (implied ∈ m.tuples))
      ↔ (∃ u v, t = [u, v]
          ∧ (u = x ∨ u = y ∨ uf.sameClass u x = true ∨ uf.sameClass u y = true)
          ∧ (v = x ∨ v = y ∨ uf.sameClass v x = true ∨ uf.sameClass v y = true))
        ∧ t ∉ m.tuples := by
    intro t
    simp only [List.mem_filter, List.mem_flatMap, List.mem_map, Bool.not_eq_true',
      decide_eq_false_iff_not, hcls]
    constructor
    · rintro ⟨⟨u, hu, v, hw, rfl⟩, hnot⟩
      exact ⟨⟨u, v, rfl, hu, hw⟩, hnot⟩
    · rintro ⟨⟨u, v, rfl, hu, hw⟩, hnot⟩
      exact ⟨⟨u, hu, v, hw, rfl⟩, hnot⟩
  have hlen : ∀ t ∈ ((joinClosure (m.tuples.length + 1) m.tuples [x, y]).flatMap fun u =>
        (joinClosure (m.tuples.length + 1) m.tuples [x, y]).map fun v => [u, v]).filter
          (fun implied => !decide (implied ∈ m.tuples)) ++ [[x, y]], t.length = r.arity := by
    intro t ht
    rw [List.mem_append, hnew] at ht
    rcases ht with ⟨⟨u, v, rfl, _, _⟩, _⟩ | ht
    · rw [harity]; rfl
    · simp only [List.mem_singleton] at ht
      rw [ht, harity]; rfl
  obtain ⟨next, m', h1, hm', ha', hmem⟩ := LVMRelation.insertTuples_spec _ r m hm hlen
  refine ⟨!m.contains [x, y], next, m', ?_, hm', by rw [ha', harity], ?_⟩
  · simp only [LVMEqRelation.insert, LVMEqRelation.extend, LVMRelation.exists,
      LVMRelation.scan, hm, Option.map_some', LVMIndex.scan]
    rw [h1]
    rfl
  · intro t
    rw [hmem, List.mem_append, hnew, hinv]
    simp only [(UnionFind.union_spec uf x y hv).2, List.mem_singleton]
    constructor
    · rintro ((⟨⟨u, v, rfl, hu, hw⟩, _⟩ | rfl) | ⟨u, v, rfl, huv⟩)
      · exact ⟨u, v, rfl, Or.inr ⟨hu, hw⟩⟩
      · exact ⟨x, y, rfl, Or.inr ⟨Or.inl rfl, Or.inr (Or.inl rfl)⟩⟩
      · exact ⟨u, v, rfl, Or.inl huv⟩
    · rintro ⟨u, v, rfl, (huv | ⟨hu, hw⟩)⟩
      · exact Or.inr ⟨u, v, rfl, huv⟩
      · by_cases hin : [u, v] ∈ m.tuples
        · exact Or.inr ((hinv _).1 hin)
        · exact Or.inl (Or.inl ⟨⟨u, v, rfl, hu, hw⟩, fun h => hin ((hinv _).2 h)⟩)

/-- A run of pair inserts into an equivalence relation that holds the pairs of the classes of
a union-find: afterwards it holds the pairs of the classes after the unions. -/
theorem LVMEqRelation.insertPairs_spec (pairs : List (RamDomain × RamDomain))
    (r : LVMRelation) (uf : UnionFind) (m : LVMIndex) (hm : r.mainIndex = some m)
    (harity : r.arity = 2) (hv : uf.Valid)
    (hinv : ∀ t, t ∈ m.tuples ↔ ∃ u v, t = [u, v] ∧ uf.sameClass u v = true) :
    ∃ next m', LVMEqRelation.insertPairs r pairs = some next ∧ next.mainIndex = some m'
      ∧ ∀ t, t ∈ m'.tuples
          ↔ ∃ u v, t = [u, v]
            ∧ (pairs.foldl (fun uf pair => uf.union pair.1 pair.2) uf).sameClass u v = true := by
  induction pairs generalizing r uf m with
  | nil => exact ⟨r, m, rfl, hm, hinv⟩
  | cons pair rest ih =>
    obtain ⟨a, b⟩ := pair
    obtain ⟨added, r1, m1, h1, hm1, ha1, hinv1⟩ :=
      LVMEqRelation.insert_pair_step r uf a b m hm harity hv hinv
    obtain ⟨r2, m2, h2, hm2, hinv2⟩ :=
      ih r1 (uf.union a b) m1 hm1 ha1 (UnionFind.union_spec uf a b hv).1 hinv1
    refine ⟨r2, m2, ?_, hm2, ?_⟩
    · simp only [LVMEqRelation.insertPairs, h1]
      exact h2
    · intro t
      rw [hinv2]
      rfl

theorem UnionFind.sameClass_empty (u v : RamDomain) :
    UnionFind.empty.sameClass u v = false := rfl

theorem LVMRelation.mainIndex_create (arity numberOfHeights : Nat) (name : String)
    (attributeTypes : List String) (orderSet : MinIndexSelection)
    (horders : orderSet.main < orderSet.orders.length) :
    (LVMRelation.create arity numberOfHeights name attributeTypes orderSet
        createBTreeIndex).mainIndex
      = some { order := orderSet.orders.get ⟨orderSet.main, horders⟩, tuples := [] } := by
  simp [LVMRelation.mainIndex, LVMRelation.create, List.getElem?_map,
    List.getElem?_eq_getElem horders, createBTreeIndex]

/-- Claim C8: in a freshly built equivalence relation over pairs, any sequence of pair inserts
succeeds and yields exactly the pairs whose two components lie in the same class of the
reference union-find fed with the same pairs, and nothing else; `exists` answers accordingly.
After the inserts of `(a, b)` and `(b, c)` the tuples are exactly the pairs over `a`, `b`, `c`,
among them `(a, c)`, `(c, a)` and the reflexive pairs. -/
theorem equivalence_closure (numberOfHeights : Nat) (relName : String)
    (attributeTypes : List String) (orderSet : MinIndexSelection)
    (horders : orderSet.main < orderSet.orders.length) :
    (∀ pairs : List (RamDomain × RamDomain), ∃ r stored,
        LVMEqRelation.insertPairs
            (LVMEqRelation.create 2 numberOfHeights relName attributeTypes orderSet) pairs
          = some r
        ∧ r.scan = some stored
        ∧ (∀ t, t ∈ stored
            ↔ ∃ u v, t = [u, v] ∧ (UnionFind.unionAll pairs).sameClass u v = true)
        ∧ ∀ t, r.exists t = some (decide (t ∈ stored)))
      ∧ ∀ a b c : RamDomain, ∃ r stored,
          LVMEqRelation.insertPairs
              (LVMEqRelation.create 2 numberOfHeights relName attributeTypes orderSet)
              [(a, b), (b, c)]
            = some r
          ∧ r.scan = some stored
          ∧ (∀ t, t ∈ stored ↔ ∃ u v, t = [u, v] ∧ u ∈ [a, b, c] ∧ v ∈ [a, b, c])
          ∧ [a, c] ∈ stored ∧ [c, a] ∈ stored
          ∧ [a, a] ∈ stored ∧ [b, b] ∈ stored ∧ [c, c] ∈ stored := by
  have general : ∀ pairs : List (RamDomain × RamDomain), ∃ r stored,
      LVMEqRelation.insertPairs
          (LVMEqRelation.create 2 numberOfHeights relName attributeTypes orderSet) pairs
        = some r
      ∧ r.scan = some stored
      ∧ (∀ t, t ∈ stored
          ↔ ∃ u v, t = [u, v] ∧ (UnionFind.unionAll pairs).sameClass u v = true)
      ∧ ∀ t, r.exists t = some (decide (t ∈ stored)) := by
    intro pairs
    have hm := LVMRelation.mainIndex_create 2 numberOfHeights relName attributeTypes orderSet
      horders
    obtain ⟨r, m, h1, hm', hinv⟩ := LVMEqRelation.insertPairs_spec pairs
      (LVMEqRelation.create 2 numberOfHeights relName attributeTypes orderSet)
      UnionFind.empty _ hm rfl UnionFind.valid_empty (by
        intro t
        simp [UnionFind.sameClass_empty])
    refine ⟨r, m.tuples, h1, ?_, hinv, ?_⟩
    · simp [LVMRelation.scan, hm', LVMIndex.scan]
    · intro t
      simp [LVMRelation.exists, hm', LVMIndex.contains]
  refine ⟨general, ?_⟩
  intro a b c
  obtain ⟨r, stored, h1, h2, h3, _⟩ := general [(a, b), (b, c)]
  have hchar : ∀ t, t ∈ stored ↔ ∃ u v, t = [u, v] ∧ u ∈ [a, b, c] ∧ v ∈ [a, b, c] := by
    intro t
    rw [h3]
    have hu : UnionFind.unionAll [(a, b), (b, c)] = (UnionFind.empty.union a b).union b c := rfl
    have hv1 := (UnionFind.union_spec UnionFind.empty a b UnionFind.valid_empty).1
    simp only [hu, (UnionFind.union_spec _ b c hv1).2,
      (UnionFind.union_spec UnionFind.empty a b UnionFind.valid_empty).2,
      UnionFind.sameClass_empty, List.mem_cons, List.mem_singleton, List.not_mem_nil,
      Bool.false_eq_true, or_false, false_or, eq_self_iff_true, or_true, true_or, and_true,
      true_and]
    constructor
    · rintro ⟨u, v, rfl, h⟩
      exact ⟨u, v, rfl, by tauto⟩
    · rintro ⟨u, v, rfl, h⟩
      exact ⟨u, v, rfl, by tauto⟩
  refine ⟨r, stored, h1, h2, hchar, ?_, ?_, ?_, ?_, ?_⟩ <;> rw [hchar] <;>
    exact ⟨_, _, rfl, by simp, by simp⟩

theorem equivalence_closure_witness :
    (LVMEqRelation.insertPairs (LVMEqRelation.create 2 0 "eq" [] ⟨[[0, 1], [1, 0]], 0⟩)
        [(1, 2), (2, 3)]).map LVMRelation.scan
      = some (some [[1, 1], [1, 2], [1, 3], [2, 1], [2, 2], [2, 3], [3, 1], [3, 2], [3, 3]])
    ∧ (LVMEqRelation.insertPairs (LVMEqRelation.create 2 0 "eq" [] ⟨[[0, 1], [1, 0]], 0⟩)
        [(1, 2), (3, 4), (2, 3)]).map LVMRelation.size = some (some 16)
    ∧ ∃ r stored,
        LVMEqRelation.insertPairs (LVMEqRelation.create 2 0 "eq" [] ⟨[[0, 1], [1, 0]], 0⟩)
            [(1, 2), (3, 4), (2, 3)] = some r
        ∧ r.scan = some stored
        ∧ (∀ t, t ∈ stored
            ↔ ∃ u v, t = [u, v]
              ∧ (UnionFind.unionAll [(1, 2), (3, 4), (2, 3)]).sameClass u v = true)
        ∧ ∀ t, r.exists t = some (decide (t ∈ stored)) :=
  ⟨by decide, by decide,
    (equivalence_closure 0 "eq" [] ⟨[[0, 1], [1, 0]], 0⟩ (by decide)).1
      [(1, 2), (3, 4), (2, 3)]⟩

/-! ## The relation store: dropping an index -/

/-- Induction along the nested operations: a property of the nodes without a nested operation
that passes from the nested operation of a node to the node holds of every node. -/
theorem RamOperation.nested_induction (P : RamOperation → Prop)
    (leaf : ∀ node, node.getOperation = none → P node)
    (step : ∀ node nested, node.getOperation = some nested → P nested → P node)
    (node : RamOperation) : P node := by
  induction node with
  | RamProject rel expressions => exact leaf _ rfl
  | RamSubroutineReturnValue expressions => exact leaf _ rfl
  | RamScan rel ident nested profileText ih => exact step _ _ rfl ih
  | RamChoice rel ident condition nested profileText ih => exact step _ _ rfl ih
  | RamIndexScan rel ident queryPattern nested profileText ih => exact step _ _ rfl ih
  | RamIndexChoice rel ident condition queryPattern nested profileText ih =>
    exact step _ _ rfl ih
  | RamAggregate nested function rel expression condition ident ih => exact step _ _ rfl ih
  | RamIndexAggregate nested function rel expression condition queryPattern ident ih =>
    exact step _ _ rfl ih
  | RamParallelScan rel ident nested profileText ih => exact step _ _ rfl ih
  | RamParallelChoice rel ident condition nested profileText ih => exact step _ _ rfl ih
  | RamParallelIndexScan rel ident queryPattern nested profileText ih => exact step _ _ rfl ih
  | RamParallelIndexChoice rel ident condition queryPattern nested profileText ih =>
    exact step _ _ rfl ih
  | RamParallelAggregate nested function rel expression condition ident ih =>
    exact step _ _ rfl ih
  | RamParallelIndexAggregate nested function rel expression condition queryPattern ident ih =>
    exact step _ _ rfl ih
  | RamUnpackRecord nested ident expression arity ih => exact step _ _ rfl ih
  | RamFilter condition nested profileText ih => exact step _ _ rfl ih
  | RamBreak condition nested profileText ih => exact step _ _ rfl ih

/-- The rewriter, node by node: a promotable node is replaced by its parallel counterpart and
the flag is raised; any other node has the rewriter applied to its children. -/
theorem parallelRewriter_eq (node : RamOperation) (changed : Bool) :
    parallelRewriter node changed
      = if node.promotable = true then (node.promote, true)
        else node.apply parallelRewriter changed := by
  cases node <;>
    simp only [parallelRewriter, RamOperation.promotable, RamOperation.isSequentialLoop,
      RamOperation.getTupleId, RamOperation.eligible, RamOperation.promote,
      RamOperation.apply, clone_eq, Bool.and_true, Bool.true_and, Bool.false_and,
      Bool.and_eq_true, decide_eq_true_eq, Option.some.injEq, Bool.not_eq_true',
      Bool.false_eq_true, if_false, and_assoc]

theorem RamOperation.apply_of_leaf (node : RamOperation)
    (mapper : RamOperation → Bool → RamOperation × Bool) (changed : Bool)
    (h : node.getOperation = none) : node.apply mapper changed = (node, changed) := by
  cases node <;> simp [RamOperation.getOperation] at h <;> rfl

theorem RamOperation.apply_of_nested (node nested : RamOperation)
    (mapper : RamOperation → Bool → RamOperation × Bool) (changed : Bool)
    (h : node.getOperation = some nested) :
    (node.apply mapper changed).1.getOperation = some (mapper nested changed).1
      ∧ (node.apply mapper changed).2 = (mapper nested changed).2
      ∧ (node.apply mapper changed).1.kind = node.kind
      ∧ ((mapper nested changed).1 = nested → (node.apply mapper changed).1 = node) := by
  cases node <;> simp only [RamOperation.getOperation, Option.some.injEq, reduceCtorEq] at h <;>
    (subst h
     refine ⟨rfl, rfl, rfl, ?_⟩
     intro hsame
     simp only [RamOperation.apply, hsame])

theorem RamOperation.promote_getOperation (node : RamOperation) :
    node.promote.getOperation = node.getOperation := by
  cases node <;> rfl

theorem RamOperation.promote_kind (node : RamOperation) (h : node.promotable = true) :
    node.promote.kind ≠ node.kind := by
  cases node <;> simp [RamOperation.promotable, RamOperation.isSequentialLoop] at h <;>
    simp [RamOperation.promote, RamOperation.kind]

/-! ## The transform changes node kinds only -/

theorem sequential_parallelRewriter (node : RamOperation) (changed : Bool) :
    (parallelRewriter node changed).1.sequential = node.sequential := by
  induction node with
  | RamProject rel expressions => rfl
  | RamSubroutineReturnValue expressions => rfl
  | RamScan rel ident nested profileText ih =>
    simp only [parallelRewriter]; split_ifs <;> simp [RamOperation.sequential, ih]
  | RamChoice rel ident condition nested profileText ih =>
    simp only [parallelRewriter]; split_ifs <;> simp [RamOperation.sequential, ih]
  | RamIndexScan rel ident queryPattern nested profileText ih =>
    simp only [parallelRewriter]; split_ifs <;> simp [RamOperation.sequential, ih, clone_eq]
  | RamIndexChoice rel ident condition queryPattern nested profileText ih =>
    simp only [parallelRewriter]; split_ifs <;> simp [RamOperation.sequential, ih, clone_eq]
  | RamAggregate nested function rel expression condition ident ih =>
    simp only [parallelRewriter]; split_ifs <;> simp [RamOperation.sequential, ih]
  | RamIndexAggregate nested function rel expression condition queryPattern ident ih =>
    simp only [parallelRewriter]; split_ifs <;> simp [RamOperation.sequential, ih, clone_eq]
  | RamParallelScan rel ident nested profileText ih =>
    simp [parallelRewriter, RamOperation.sequential, ih]
  | RamParallelChoice rel ident condition nested profileText ih =>
    simp [parallelRewriter, RamOperation.sequential, ih]
  | RamParallelIndexScan rel ident queryPattern nested profileText ih =>
    simp [parallelRewriter, RamOperation.sequential, ih]
  | RamParallelIndexChoice rel ident condition queryPattern nested profileText ih =>
    simp [parallelRewriter, RamOperation.sequential, ih]
  | RamParallelAggregate nested function rel expression condition ident ih =>
    simp [parallelRewriter, RamOperation.sequential, ih]
  | RamParallelIndexAggregate nested function rel expression condition queryPattern ident ih =>
    simp [parallelRewriter, RamOperation.sequential, ih]
  | RamUnpackRecord nested ident expression arity ih =>
    simp [parallelRewriter, RamOperation.sequential, ih]
  | RamFilter condition nested profileText ih =>
    simp [parallelRewriter, RamOperation.sequential, ih]
  | RamBreak condition nested profileText ih =>
    simp [parallelRewriter, RamOperation.sequential, ih]

mutual
theorem sequential_visitStatement (s : RamStatement) (c : Bool) :
    (visitStatement s c).1.sequential = s.sequential := by
  match s with
  | .RamSequence l =>
    have h := sequential_visitStatements l c
    simp only [visitStatement, RamStatement.sequential, h]
  | .RamParallel l =>
    have h := sequential_visitStatements l c
    simp only [visitStatement, RamStatement.sequential, h]
  | .RamLoop b =>
    have h := sequential_visitStatement b c
    simp only [visitStatement, RamStatement.sequential, h]
  | .RamExit _ => rfl
  | .RamQuery op =>
    rw [show visitStatement (.RamQuery op) c = rewriteQuery op c from rfl]
    unfold rewriteQuery
    simp only [RamStatement.sequential, sequential_parallelRewriter]
  | .RamLogTimer b _ =>
    have h := sequential_visitStatement b c
    simp only [visitStatement, RamStatement.sequential, h]
  | .RamDebugInfo b _ =>
    have h := sequential_visitStatement b c
    simp only [visitStatement, RamStatement.sequential, h]
  | .RamClear _ => rfl
  | .RamSwap _ _ => rfl
theorem sequential_visitStatements (l : List RamStatement) (c : Bool) :
    sequentialStatements (visitStatements l c).1 = sequentialStatements l := by
  match l with
  | [] => rfl
  | s :: rest =>
    have h1 := sequential_visitStatement s c
    have h2 := sequential_visitStatements rest (visitStatement s c).2
    simp only [visitStatements, sequentialStatements, h1, h2]
end

theorem sequential_visitSubroutines (l : List (String × RamStatement)) (c : Bool) :
    sequentialSubroutines (visitSubroutines l c).1 = sequentialSubroutines l := by
  induction l generalizing c with
  | nil => rfl
  | cons p rest ih =>
    obtain ⟨name, s⟩ := p
    simp only [visitSubroutines, sequentialSubroutines, sequential_visitStatement, ih]

/-- Claim C14: the pass changes node kinds only: for every program, mapping each parallel loop
kind back to its sequential kind in the output of `parallelizeOperations` gives exactly the
tree obtained by doing the same to the input; the same holds of the rewriter on every operation
tree, and the relations of the program are kept. -/
theorem parallelizeOperations_kinds_only (program : RamProgram) :
    (ParallelTransformer.parallelizeOperations program).1.sequential = program.sequential
      ∧ (ParallelTransformer.parallelizeOperations program).1.relations = program.relations
      ∧ ∀ (node : RamOperation) (changed : Bool),
          (parallelRewriter node changed).1.sequential = node.sequential := by
  refine ⟨?_, rfl, sequential_parallelRewriter⟩
  simp only [ParallelTransformer.parallelizeOperations, RamProgram.sequential,
    sequential_visitStatement, sequential_visitSubroutines]

/-! ## Where the rewrite replaces a node -/

theorem parallelRewriter_of_promotable (node : RamOperation) (changed : Bool)
    (h : node.promotable = true) : parallelRewriter node changed = (node.promote, true) := by
  rw [parallelRewriter_eq node changed, if_pos h]

theorem parallelRewriter_of_not_promotable (node : RamOperation) (changed : Bool)
    (h : node.promotable = false) :
    parallelRewriter node changed = node.apply parallelRewriter changed := by
  rw [parallelRewriter_eq node changed, if_neg (by simp [h])]

/-- Below a chain of nodes that are not promotable, the rewriter is applied to the node at the
end of the chain: the output holds its result at the same depth, and the flag is the one of
that application. -/
theorem parallelRewriter_reaches (depth : Nat) (root target : RamOperation) (changed : Bool)
    (htarget : root.descendant depth = some target)
    (hchain : ∀ above < depth, ∀ node, root.descendant above = some node →
      node.promotable = false) :
    (parallelRewriter root changed).1.descendant depth
        = some (parallelRewriter target changed).1
      ∧ (parallelRewriter root changed).2 = (parallelRewriter target changed).2 := by
  induction depth generalizing root with
  | zero =>
    simp only [RamOperation.descendant, Option.some.injEq] at htarget
    subst htarget
    exact ⟨rfl, rfl⟩
  | succ k ih =>
    have hroot : root.promotable = false := hchain 0 (Nat.succ_pos k) root rfl
    simp only [RamOperation.descendant] at htarget
    cases hn : root.getOperation with
    | none => rw [hn] at htarget; cases htarget
    | some nested =>
      rw [hn] at htarget
      have hchain' : ∀ above < k, ∀ node, nested.descendant above = some node →
          node.promotable = false := by
        intro above habove node hnode
        apply hchain (above + 1) (Nat.succ_lt_succ habove) node
        simp only [RamOperation.descendant, hn]
        exact hnode
      obtain ⟨h1, h2⟩ := ih nested htarget hchain'
      obtain ⟨a1, a2, _, _⟩ := RamOperation.apply_of_nested root nested parallelRewriter
        changed hn
      rw [parallelRewriter_of_not_promotable root changed hroot]
      simp only [RamOperation.descendant, a1, a2]
      exact ⟨h1, h2⟩

/-- The node of the output at a depth is the node of the input at that depth, either as it
was or as the rewriter returns it. -/
theorem parallelRewriter_descendant (depth : Nat) (root node : RamOperation) (changed : Bool)
    (hnode : root.descendant depth = some node) :
    (parallelRewriter root changed).1.descendant depth = some node
      ∨ (parallelRewriter root changed).1.descendant depth
          = some (parallelRewriter node changed).1 := by
  induction depth generalizing root with
  | zero =>
    simp only [RamOperation.descendant, Option.some.injEq] at hnode
    subst hnode
    exact Or.inr rfl
  | succ k ih =>
    simp only [RamOperation.descendant] at hnode
    cases hn : root.getOperation with
    | none => rw [hn] at hnode; cases hnode
    | some nested =>
      rw [hn] at hnode
      cases hp : root.promotable
      · obtain ⟨a1, _, _, _⟩ := RamOperation.apply_of_nested root nested parallelRewriter
          changed hn
        rw [parallelRewriter_of_not_promotable root changed hp]
        simp only [RamOperation.descendant, a1]
        exact ih nested hnode
      · left
        rw [parallelRewriter_of_promotable root changed hp]
        simp only [RamOperation.descendant, RamOperation.promote_getOperation, hn]
        exact hnode

/-- The result of the rewriter on a node has the kind of the node, unless the node is
promotable and the result is its parallel counterpart. -/
theorem parallelRewriter_kind (node : RamOperation) (changed : Bool) :
    (parallelRewriter node changed).1.kind = node.kind
      ∨ (node.promotable = true ∧ (parallelRewriter node changed).1 = node.promote) := by
  cases hp : node.promotable
  · left
    rw [parallelRewriter_of_not_promotable node changed hp]
    cases hn : node.getOperation with
    | none => rw [RamOperation.apply_of_leaf node _ _ hn]
    | some nested => exact (RamOperation.apply_of_nested node nested _ _ hn).2.2.1
  · right
    rw [parallelRewriter_of_promotable node changed hp]
    exact ⟨rfl, rfl⟩

/-- A run of the rewriter that leaves the flag down hands back the tree as it was. -/
theorem parallelRewriter_of_flag_false (node : RamOperation) :
    ∀ changed, (parallelRewriter node changed).2 = false →
      (parallelRewriter node changed).1 = node := by
  refine RamOperation.nested_induction
    (fun node => ∀ changed, (parallelRewriter node changed).2 = false →
      (parallelRewriter node changed).1 = node) ?_ ?_ node
  · intro node hn changed hflag
    cases hp : node.promotable
    · rw [parallelRewriter_of_not_promotable node changed hp,
        RamOperation.apply_of_leaf node _ _ hn]
    · rw [parallelRewriter_of_promotable node changed hp] at hflag
      cases hflag
  · intro node nested hn ih changed hflag
    cases hp : node.promotable
    · obtain ⟨_, a2, _, a4⟩ := RamOperation.apply_of_nested node nested parallelRewriter
        changed hn
      rw [parallelRewriter_of_not_promotable node changed hp] at hflag ⊢
      rw [a2] at hflag
      exact a4 (ih changed hflag)
    · rw [parallelRewriter_of_promotable node changed hp] at hflag
      cases hflag

/-- A run of the rewriter started with the flag down that raises it has replaced a promotable
node, the first one on the way down, by its parallel counterpart. -/
theorem parallelRewriter_of_flag_true (node : RamOperation) :
    (parallelRewriter node false).2 = true →
      ∃ depth target, node.descendant depth = some target ∧ target.promotable = true
        ∧ (parallelRewriter node false).1.descendant depth = some target.promote := by
  refine RamOperation.nested_induction
    (fun node => (parallelRewriter node false).2 = true →
      ∃ depth target, node.descendant depth = some target ∧ target.promotable = true
        ∧ (parallelRewriter node false).1.descendant depth = some target.promote) ?_ ?_ node
  · intro node hn hflag
    cases hp : node.promotable
    · rw [parallelRewriter_of_not_promotable node false hp,
        RamOperation.apply_of_leaf node _ _ hn] at hflag
      cases hflag
    · refine ⟨0, node, rfl, hp, ?_⟩
      rw [parallelRewriter_of_promotable node false hp]
      rfl
  · intro node nested hn ih hflag
    cases hp : node.promotable
    · obtain ⟨a1, a2, _, _⟩ := RamOperation.apply_of_nested node nested parallelRewriter
        false hn
      rw [parallelRewriter_of_not_promotable node false hp] at hflag ⊢
      rw [a2] at hflag
      obtain ⟨depth, target, h1, h2, h3⟩ := ih hflag
      refine ⟨depth + 1, target, ?_, h2, ?_⟩
      · simp only [RamOperation.descendant, hn]; exact h1
      · simp only [RamOperation.descendant, a1]; exact h3
    · refine ⟨0, node, rfl, hp, ?_⟩
      rw [parallelRewriter_of_promotable node false hp]
      rfl

theorem RamOperation.promotable_iff (node : RamOperation) :
    node.promotable = true
      ↔ node.isSequentialLoop = true ∧ node.getTupleId = some 0 ∧ node.eligible = true := by
  simp [RamOperation.promotable, and_assoc]

/-! ## The transform: recursion, and what is replaced -/

theorem parallelizeOperations_query (program : RamProgram) (i : Nat) (root : RamOperation)
    (hq : program.queries[i]? = some root) :
    (ParallelTransformer.parallelizeOperations program).1.queries[i]?
        = some (parallelRewriter root false).1
      ∧ ((parallelRewriter root false).2 = true →
          (ParallelTransformer.parallelizeOperations program).2 = true) := by
  obtain ⟨h1, h2⟩ := parallelizeOperations_queries program
  refine ⟨?_, ?_⟩
  · rw [h1, List.getElem?_map, hq, Option.map_some']
  · intro hflag
    rw [h2, List.any_eq_true]
    exact ⟨root, List.getElem?_mem hq, hflag⟩

/-- Claim C15: a node that the rewriter does not replace comes back as that node with the
rewriter applied to its children (a sequence statement likewise has its children visited);
hence a promotable loop found in a query beneath a chain of nodes that are not promotable is
replaced by its parallel counterpart, at its depth, and `changed` is true. -/
theorem unreplaced_node_recurses (program : RamProgram) (i depth : Nat)
    (root target : RamOperation)
    (hq : program.queries[i]? = some root)
    (htarget : root.descendant depth = some target)
    (hchain : ∀ above < depth, ∀ node, root.descendant above = some node →
      node.promotable = false)
    (hp : target.promotable = true) :
    (∀ (node : RamOperation) (changed : Bool), node.promotable = false →
        parallelRewriter node changed = node.apply parallelRewriter changed)
      ∧ (∀ (statements : List RamStatement) (changed : Bool),
          visitStatement (.RamSequence statements) changed
            = (.RamSequence (visitStatements statements changed).1,
                (visitStatements statements changed).2))
      ∧ (∀ changed, (parallelRewriter root changed).2 = true
          ∧ (parallelRewriter root changed).1.descendant depth = some target.promote)
      ∧ (ParallelTransformer.parallelizeOperations program).2 = true
      ∧ ∃ root', (ParallelTransformer.parallelizeOperations program).1.queries[i]? = some root'
          ∧ root'.descendant depth = some target.promote := by
  have hroot : ∀ changed, (parallelRewriter root changed).2 = true
      ∧ (parallelRewriter root changed).1.descendant depth = some target.promote := by
    intro changed
    obtain ⟨h1, h2⟩ := parallelRewriter_reaches depth root target changed htarget hchain
    rw [parallelRewriter_of_promotable target changed hp] at h1 h2
    exact ⟨h2, h1⟩
  obtain ⟨hout, hflag⟩ := parallelizeOperations_query program i root hq
  exact ⟨parallelRewriter_of_not_promotable, fun _ _ => rfl, hroot, hflag (hroot false).1,
    _, hout, (hroot false).2⟩

theorem unreplaced_node_recurses_witness :
    (ParallelTransformer.parallelizeOperations nestedProgram).2 = true
      ∧ ∃ root', (ParallelTransformer.parallelizeOperations nestedProgram).1.queries[0]?
            = some root'
          ∧ root'.descendant 2
            = some (.RamParallelChoice ⟨"path", 2⟩ 0 .RamTrue
                (.RamProject ⟨"path", 2⟩ [.RamTupleElement 1 0, .RamTupleElement 0 1])
                "choice") :=
  (unreplaced_node_recurses nestedProgram 0 2 filterChain choiceLoop rfl rfl
    (by
      intro above habove node hnode
      have h2 : above = 0 ∨ above = 1 := by omega
      rcases h2 with rfl | rfl
      · obtain rfl : node = filterChain :=
          Option.some.inj (hnode.symm.trans (rfl : filterChain.descendant 0 = some filterChain))
        rfl
      · obtain rfl : node = scanOverChoice :=
          Option.some.inj
            (hnode.symm.trans (rfl : filterChain.descendant 1 = some scanOverChoice))
        rfl)
    rfl).2.2.2

/-- Claim C16: when a loop node is promoted the recursion stops: the result is the parallel
counterpart of the node, its nested operation is the nested operation of the node, and every
node below it is the node that was there, so nothing inside is replaced, be it a loop with
tuple id 0 that is eligible. -/
theorem promotion_stops_recursion (node : RamOperation) (changed : Bool)
    (hp : node.promotable = true) :
    parallelRewriter node changed = (node.promote, true)
      ∧ (parallelRewriter node changed).1.getOperation = node.getOperation
      ∧ ∀ depth, (parallelRewriter node changed).1.descendant (depth + 1)
          = node.descendant (depth + 1) := by
  rw [parallelRewriter_of_promotable node changed hp]
  refine ⟨rfl, RamOperation.promote_getOperation node, ?_⟩
  intro depth
  simp only [RamOperation.descendant, RamOperation.promote_getOperation]

theorem promotion_stops_recursion_witness :
    innerScan.promotable = true
      ∧ parallelRewriter outerScan false
        = (.RamParallelScan ⟨"edge", 2⟩ 0
            (.RamScan ⟨"path", 2⟩ 0
              (.RamFilter .RamTrue
                (.RamProject ⟨"path", 2⟩ [.RamTupleElement 0 0, .RamTupleElement 0 1]) "")
              "inner") "outer", true) :=
  ⟨rfl, (promotion_stops_recursion outerScan false rfl).1⟩

/-- Claim C17: every node of a query has, at its depth in the output, a node of its own kind
or its parallel counterpart, and the parallel counterpart only when the node is of one of the
six sequential loop kinds, has tuple id 0 and satisfies the eligibility rule of its kind; a
node whose tuple id is not 0 and a node that is not a sequential loop keep their kind. -/
theorem only_eligible_loops_replaced (program : RamProgram) (i depth : Nat)
    (root node : RamOperation)
    (hq : program.queries[i]? = some root)
    (hnode : root.descendant depth = some node) :
    ∃ root' node',
      (ParallelTransformer.parallelizeOperations program).1.queries[i]? = some root'
      ∧ root'.descendant depth = some node'
      ∧ (node'.kind = node.kind ∨ (node.promotable = true ∧ node' = node.promote))
      ∧ (node'.kind ≠ node.kind →
          node.isSequentialLoop = true ∧ node.getTupleId = some 0 ∧ node.eligible = true)
      ∧ (node.getTupleId ≠ some 0 → node'.kind = node.kind)
      ∧ (node.isSequentialLoop = false → node'.kind = node.kind) := by
  obtain ⟨hout, _⟩ := parallelizeOperations_query program i root hq
  have hshape : ∃ node', (parallelRewriter root false).1.descendant depth = some node'
      ∧ (node'.kind = node.kind ∨ (node.promotable = true ∧ node' = node.promote)) := by
    rcases parallelRewriter_descendant depth root node false hnode with h | h
    · exact ⟨node, h, Or.inl rfl⟩
    · exact ⟨_, h, parallelRewriter_kind node false⟩
  obtain ⟨node', h1, h2⟩ := hshape
  have h3 : node'.kind ≠ node.kind →
      node.isSequentialLoop = true ∧ node.getTupleId = some 0 ∧ node.eligible = true := by
    intro hk
    rcases h2 with h | ⟨h, _⟩
    · exact absurd h hk
    · exact (RamOperation.promotable_iff node).1 h
  refine ⟨_, node', hout, h1, h2, h3, ?_, ?_⟩
  · intro hid
    by_contra hk
    exact hid (h3 hk).2.1
  · intro hloop
    by_contra hk
    rw [(h3 hk).1] at hloop
    cases hloop

theorem only_eligible_loops_replaced_witness :
    (ParallelTransformer.parallelizeOperations nestedProgram).1.queries
        = [.RamFilter .RamTrue
            (.RamScan ⟨"edge", 2⟩ 1
              (.RamParallelChoice ⟨"path", 2⟩ 0 .RamTrue
                (.RamProject ⟨"path", 2⟩ [.RamTupleElement 1 0, .RamTupleElement 0 1])
                "choice")
              "scan edge") "",
           .RamParallelScan ⟨"edge", 2⟩ 0
            (.RamScan ⟨"path", 2⟩ 0
              (.RamFilter .RamTrue
                (.RamProject ⟨"path", 2⟩ [.RamTupleElement 0 0, .RamTupleElement 0 1]) "")
              "inner") "outer"]
      ∧ ∃ root' node',
          (ParallelTransformer.parallelizeOperations nestedProgram).1.queries[0]? = some root'
          ∧ root'.descendant 1 = some node'
          ∧ (node'.kind = scanOverChoice.kind
            ∨ (scanOverChoice.promotable = true ∧ node' = scanOverChoice.promote)) :=
  ⟨rfl, by
    obtain ⟨root', node', h1, h2, h3, _⟩ :=
      only_eligible_loops_replaced nestedProgram 0 1 filterChain scanOverChoice rfl rfl
    exact ⟨root', node', h1, h2, h3⟩⟩

/-- Claim C18: the flag returned by `parallelizeOperations` is true exactly when a node of some
query has been replaced, that is when the output holds, at some depth of some query, a node
of another kind than the input: when the flag is false the program is the input program, and
when it is true a promotable node of some query has become its parallel counterpart, so the
output is not the input. -/
theorem changed_iff_replaced (program : RamProgram) :
    ((ParallelTransformer.parallelizeOperations program).2 = false →
        (ParallelTransformer.parallelizeOperations program).1 = program)
      ∧ ((ParallelTransformer.parallelizeOperations program).2 = true →
          ∃ (i depth : Nat) (root root' node : RamOperation), program.queries[i]? = some root
            ∧ (ParallelTransformer.parallelizeOperations program).1.queries[i]? = some root'
            ∧ root.descendant depth = some node ∧ node.promotable = true
            ∧ root'.descendant depth = some node.promote
            ∧ node.promote.kind ≠ node.kind)
      ∧ ((ParallelTransformer.parallelizeOperations program).2 = true
          ↔ ∃ (i depth : Nat) (root root' node node' : RamOperation),
            program.queries[i]? = some root
            ∧ (ParallelTransformer.parallelizeOperations program).1.queries[i]? = some root'
            ∧ root.descendant depth = some node ∧ root'.descendant depth = some node'
            ∧ node'.kind ≠ node.kind)
      ∧ ((ParallelTransformer.parallelizeOperations program).2 = true →
          (ParallelTransformer.parallelizeOperations program).1 ≠ program) := by
  have hfalse : (ParallelTransformer.parallelizeOperations program).2 = false →
      (ParallelTransformer.parallelizeOperations program).1 = program := by
    intro hflag
    have hall : ∀ op ∈ program.queries, parallelRewriter op false = (op, false) := by
      intro op hop
      have h2 := (parallelizeOperations_queries program).2
      rw [hflag] at h2
      have hop2 : (parallelRewriter op false).2 = false := by
        by_contra hne
        have htrue : (parallelRewriter op false).2 = true := by simpa using hne
        have hany : program.queries.any (fun op => (parallelRewriter op false).2) = true :=
          List.any_eq_true.2 ⟨op, hop, htrue⟩
        rw [← h2] at hany
        cases hany
      exact Prod.ext (parallelRewriter_of_flag_false op false hop2) hop2
    rw [parallelizeOperations_fixed program hall]
  have htrue : (ParallelTransformer.parallelizeOperations program).2 = true →
      ∃ (i depth : Nat) (root root' node : RamOperation), program.queries[i]? = some root
        ∧ (ParallelTransformer.parallelizeOperations program).1.queries[i]? = some root'
        ∧ root.descendant depth = some node ∧ node.promotable = true
        ∧ root'.descendant depth = some node.promote
        ∧ node.promote.kind ≠ node.kind := by
    intro hflag
    rw [(parallelizeOperations_queries program).2, List.any_eq_true] at hflag
    obtain ⟨root, hroot, hrflag⟩ := hflag
    obtain ⟨i, hi⟩ := List.getElem?_of_mem hroot
    obtain ⟨depth, node, h1, h2, h3⟩ := parallelRewriter_of_flag_true root hrflag
    exact ⟨i, depth, root, _, node, hi, (parallelizeOperations_query program i root hi).1,
      h1, h2, h3, RamOperation.promote_kind node h2⟩
  have hiff : (ParallelTransformer.parallelizeOperations program).2 = true
      ↔ ∃ (i depth : Nat) (root root' node node' : RamOperation),
            program.queries[i]? = some root
        ∧ (ParallelTransformer.parallelizeOperations program).1.queries[i]? = some root'
        ∧ root.descendant depth = some node ∧ root'.descendant depth = some node'
        ∧ node'.kind ≠ node.kind := by
    constructor
    · intro hflag
      obtain ⟨i, depth, root, root', node, h1, h2, h3, _, h5, h6⟩ := htrue hflag
      exact ⟨i, depth, root, root', node, _, h1, h2, h3, h5, h6⟩
    · rintro ⟨i, depth, root, root', node, node', h1, h2, h3, h4, h5⟩
      by_contra hne
      have hf : (ParallelTransformer.parallelizeOperations program).2 = false := by
        simpa using hne
      rw [hfalse hf, h1] at h2
      cases h2
      rw [h3] at h4
      cases h4
      exact h5 rfl
  refine ⟨hfalse, htrue, hiff, ?_⟩
  intro hflag heq
  obtain ⟨i, depth, root, root', node, h1, h2, h3, _, h5, h6⟩ := htrue hflag
  rw [heq, h1] at h2
  cases h2
  rw [h3] at h5
  exact h6 (congrArg RamOperation.kind (Option.some.inj h5).symm)

theorem changed_iff_replaced_witness :
    (ParallelTransformer.parallelizeOperations copyProgram).2 = false
      ∧ (ParallelTransformer.parallelizeOperations copyProgram).1 = copyProgram
      ∧ (ParallelTransformer.parallelizeOperations nestedProgram).2 = true
      ∧ (ParallelTransformer.parallelizeOperations nestedProgram).1 ≠ nestedProgram :=
  ⟨rfl, (changed_iff_replaced copyProgram).1 rfl, rfl,
    (changed_iff_replaced nestedProgram).2.2.2 rfl⟩

/-! ## The relation store: index lockstep -/

theorem LVMRelation.lockstep_insert (r : LVMRelation) (tuple : TupleRef) (added : Bool)
    (next : LVMRelation) (hr : r.Lockstep) (hstep : r.insert tuple = some (added, next)) :
    next.Lockstep := by
  obtain ⟨hmain, hlock⟩ := hr
  have hm := LVMRelation.mainIndex_of_lt r hmain
  have harity : tuple.length = r.arity := by
    by_contra hne
    unfold LVMRelation.insert at hstep
    rw [if_pos hne] at hstep
    cases hstep
  rw [LVMRelation.insert_eq r tuple _ hm harity] at hstep
  cases hc : (r.indexes.get ⟨r.main, hmain⟩).contains tuple
  · rw [hc] at hstep
    simp only [Bool.not_false, Bool.false_eq_true, if_false, Option.some.injEq,
      Prod.mk.injEq] at hstep
    obtain ⟨_, rfl⟩ := hstep
    have hnot : ∀ index ∈ r.indexes, index.contains tuple = false := by
      intro index hindex
      have h := (hlock index hindex _ (List.get_mem r.indexes r.main hmain)).1 tuple
      have hcm : tuple ∉ (r.indexes.get ⟨r.main, hmain⟩).tuples := by
        simpa [LVMIndex.contains] using hc
      simpa [LVMIndex.contains] using fun hin => hcm (h.1 hin)
    refine ⟨by simpa using hmain, ?_⟩
    intro first hfirst second hsecond
    simp only [List.mem_map] at hfirst hsecond
    obtain ⟨first0, hfirst0, rfl⟩ := hfirst
    obtain ⟨second0, hsecond0, rfl⟩ := hsecond
    obtain ⟨hmem, hlen⟩ := hlock first0 hfirst0 second0 hsecond0
    refine ⟨?_, ?_⟩
    · intro other
      rw [LVMIndex.mem_insert, LVMIndex.mem_insert, hmem other]
    · have h1 := LVMIndex.size_insert first0 tuple (hnot first0 hfirst0)
      have h2 := LVMIndex.size_insert second0 tuple (hnot second0 hsecond0)
      simp only [LVMIndex.size] at h1 h2
      rw [h1, h2, hlen]
  · rw [hc] at hstep
    simp only [Bool.not_true, if_true, Option.some.injEq, Prod.mk.injEq] at hstep
    obtain ⟨_, rfl⟩ := hstep
    exact ⟨hmain, hlock⟩

theorem LVMRelation.lockstep_insertTuples (tuples : List TupleRef) (r next : LVMRelation)
    (hr : r.Lockstep) (hstep : r.insertTuples tuples = some next) : next.Lockstep := by
  induction tuples generalizing r with
  | nil =>
    simp only [LVMRelation.insertTuples, Option.some.injEq] at hstep
    rw [← hstep]; exact hr
  | cons tuple rest ih =>
    simp only [LVMRelation.insertTuples] at hstep
    cases hone : r.insert tuple with
    | none => rw [hone] at hstep; cases hstep
    | some result =>
      obtain ⟨added, mid⟩ := result
      rw [hone] at hstep
      exact ih mid (LVMRelation.lockstep_insert r tuple added mid hr hone) hstep

theorem LVMRelation.swap_this (r other : LVMRelation) : (r.swap other).1 = other := by
  cases other; rfl

theorem LVMRelation.swap_other (r other : LVMRelation) : (r.swap other).2 = r := by
  cases r; rfl

theorem LVMRelation.lockstep_of_reachable (r : LVMRelation) (h : r.Reachable) :
    r.Lockstep := by
  induction h with
  | fresh arity numberOfHeights name attributeTypes orderSet horders =>
    refine ⟨by simpa [LVMRelation.create] using horders, ?_⟩
    intro first hfirst second hsecond
    simp only [LVMRelation.create, List.mem_map, createBTreeIndex] at hfirst hsecond
    obtain ⟨_, _, rfl⟩ := hfirst
    obtain ⟨_, _, rfl⟩ := hsecond
    exact ⟨fun _ => Iff.rfl, rfl⟩
  | insert r tuple added next _ hstep ih =>
    exact LVMRelation.lockstep_insert r tuple added next ih hstep
  | insertRelation r other next _ _ hstep ih _ =>
    unfold LVMRelation.insertRelation at hstep
    cases hscan : other.scan with
    | none => rw [hscan] at hstep; cases hstep
    | some tuples =>
      rw [hscan] at hstep
      exact LVMRelation.lockstep_insertTuples tuples r next ih hstep
  | purge r _ ih =>
    refine ⟨by simpa [LVMRelation.purge] using ih.1, ?_⟩
    intro first hfirst second hsecond
    simp only [LVMRelation.purge, List.mem_map] at hfirst hsecond
    obtain ⟨_, _, rfl⟩ := hfirst
    obtain ⟨_, _, rfl⟩ := hsecond
    exact ⟨fun _ => Iff.rfl, rfl⟩
  | swapThis r other _ _ _ ihother =>
    rw [LVMRelation.swap_this]; exact ihother
  | swapOther r other _ _ ih _ =>
    rw [LVMRelation.swap_other]; exact ih

/-- Claim C19: index lockstep is an invariant: a relation obtained from freshly constructed
relations by any sequence of `insert(tuple)`, `insert(otherRelation)`, `purge` and `swap` has a
main index, and any two of its maintained indexes hold exactly the same tuples and as many of
them; so the membership test and the size of every maintained index are the answers of
`exists` and `size` of the relation. -/
theorem index_lockstep (r : LVMRelation) (h : r.Reachable) :
    r.main < r.indexes.length
      ∧ (∀ first ∈ r.indexes, ∀ second ∈ r.indexes,
          (∀ tuple, tuple ∈ first.tuples ↔ tuple ∈ second.tuples)
            ∧ (∀ tuple, first.contains tuple = second.contains tuple)
            ∧ first.size = second.size)
      ∧ ∀ index ∈ r.indexes,
          (∀ tuple, r.exists tuple = some (index.contains tuple))
            ∧ r.size = some index.size := by
  obtain ⟨hmain, hlock⟩ := LVMRelation.lockstep_of_reachable r h
  have hcontains : ∀ first ∈ r.indexes, ∀ second ∈ r.indexes,
      ∀ tuple, first.contains tuple = second.contains tuple := by
    intro first hfirst second hsecond tuple
    have hiff := (hlock first hfirst second hsecond).1 tuple
    simp only [LVMIndex.contains, hiff]
  refine ⟨hmain, ?_, ?_⟩
  · intro first hfirst second hsecond
    exact ⟨(hlock first hfirst second hsecond).1, hcontains first hfirst second hsecond,
      (hlock first hfirst second hsecond).2⟩
  · intro index hindex
    have hm := LVMRelation.mainIndex_of_lt r hmain
    have hmem := List.get_mem r.indexes r.main hmain
    refine ⟨?_, ?_⟩
    · intro tuple
      simp only [LVMRelation.exists, hm, Option.map_some']
      rw [hcontains _ hmem index hindex tuple]
    · simp only [LVMRelation.size, hm, Option.map_some', LVMIndex.size]
      rw [(hlock _ hmem index hindex).2]

theorem index_lockstep_witness :
    freshPairRelation.insert [1, 2] = some (true, pairRelation)
      ∧ pairRelation.main < pairRelation.indexes.length
      ∧ (∀ first ∈ pairRelation.indexes, ∀ second ∈ pairRelation.indexes,
          (∀ tuple, tuple ∈ first.tuples ↔ tuple ∈ second.tuples)
            ∧ (∀ tuple, first.contains tuple = second.contains tuple)
            ∧ first.size = second.size)
      ∧ ∀ index ∈ pairRelation.indexes,
          (∀ tuple, pairRelation.exists tuple = some (index.contains tuple))
            ∧ pairRelation.size = some index.size :=
  ⟨by decide,
    index_lockstep pairRelation
      (LVMRelation.Reachable.insert freshPairRelation [1, 2] true pairRelation
        (LVMRelation.Reachable.fresh 2 0 "edge" ["i:number", "i:number"]
          ⟨[[0, 1], [1, 0]], 1⟩ (by decide))
        (by decide))⟩

end souffle
